import Mathlib

/-
Verification of the UUF template app (wso2-attic/uuf-template-app).

Shallow embedding of the component repository builder (utils.js /
src/unnamed/part_004), the rendering Handlebars helpers
(src/unnamed/part_003 and src/lib/rendering-handlebars-helpers.js) and the
zone data structures (src/lib/data-structures.js), together with theorems
about the claims of the specification.

JavaScript objects are modelled with value semantics (association lists in
insertion order, matching for-in enumeration order for string keys); the
claims proved here never observe reference aliasing of nested objects, so
value semantics is adequate.
-/

namespace UUF

/-- A JavaScript primitive value as it occurs in a parsed JSON definition
file: a string, a number or a boolean. -/
inductive Prim where
  | str (s : String)
  | num (n : Int)
  | bool (b : Bool)
deriving Repr, DecidableEq

/-- A JSON value of a component definition file: a primitive, `null`, an
array, or an object whose properties are kept in insertion order (the order
JavaScript for-in enumerates string keys). -/
inductive Value where
  | prim (p : Prim)
  | null
  | arr (elems : List Value)
  | obj (props : List (String × Value))

/-- JavaScript truthiness of a primitive: empty string, 0 and false are
falsy. -/
def truthyPrim : Prim → Bool
  | .str s => s ≠ ""
  | .num n => n ≠ 0
  | .bool b => b

/-- JavaScript truthiness of a value: null is falsy, arrays and objects are
truthy. -/
def truthyValue : Value → Bool
  | .prim p => truthyPrim p
  | .null => false
  | .arr _ => true
  | .obj _ => true

/-- Property read `o[k]` on an object modelled as an association list. -/
def lookupKey : List (String × Value) → String → Option Value
  | [], _ => none
  | (k', v') :: rest, k => if k' = k then some v' else lookupKey rest k

/-- Property write `o[k] = v`: overwrites in place when the key exists
(keeping its position), otherwise appends (JavaScript insertion order). -/
def setKey : List (String × Value) → String → Value → List (String × Value)
  | [], k, v => [(k, v)]
  | (k', v') :: rest, k, v =>
      if k' = k then (k', v) :: rest else (k', v') :: setKey rest k v

mutual

/-- The property-merging loop of `extend` (utils.js, part_004 lines
95-111) run over the parent's property list: array-valued parent
properties overwrite the child unconditionally; object-valued (and null,
whose typeof is also object) parent properties merge recursively into the
child's value at that key; primitive parent properties fill gaps only. -/
def extendProps : List (String × Value) → List (String × Value) → List (String × Value)
  | child, [] => child
  | child, (k, .arr es) :: rest => extendProps (setKey child k (.arr es)) rest
  | child, (k, .obj ps) :: rest =>
      extendProps (setKey child k (extendChild (lookupKey child k) ps)) rest
  | child, (k, .null) :: rest =>
      extendProps (setKey child k (extendChild (lookupKey child k) [])) rest
  | child, (k, .prim p) :: rest =>
      extendProps (if (lookupKey child k).isSome then child
                   else setKey child k (.prim p)) rest
termination_by _child parent => (sizeOf parent, 0)

/-- The recursive call `extend(child[k], parentValue)` of utils.js for an
object-typed parent value: `child = child || {}` replaces an absent, null
or falsy-primitive child by a fresh object; property assignments onto a
truthy primitive are silently dropped in non-strict mode, so the primitive
survives; assignments onto an array attach non-element properties that no
later code reads, so the array value is unchanged. -/
def extendChild : Option Value → List (String × Value) → Value
  | some (.obj cps), ps => .obj (extendProps cps ps)
  | some (.arr es), _ => .arr es
  | some (.prim p), ps =>
      if truthyPrim p then .prim p else .obj (extendProps [] ps)
  | some .null, ps => .obj (extendProps [] ps)
  | none, ps => .obj (extendProps [] ps)
termination_by _c ps => (sizeOf ps, 1)

end

/-- `extend(child, parent)` of utils.js at its top-level call sites, where
both arguments are (definition) objects. -/
def extend (child parent : List (String × Value)) : List (String × Value) :=
  extendProps child parent

/-- Repeated definition merging along an inheritance chain: the descendant
definition is extended by each ancestor definition from nearest to
furthest, exactly as the chaining loop of `getUiComponentsData` does. -/
def mergeDefinitions (own : List (String × Value))
    (ancestors : List (List (String × Value))) : List (String × Value) :=
  ancestors.foldl extend own

/-- The value of field `f` in the nearest definition of the list that
declares it (used to state the inheritance override law). -/
def firstDeclared (ds : List (List (String × Value))) (f : String) : Option Value :=
  match ds with
  | [] => none
  | d :: rest => (lookupKey d f).or (firstDeclared rest f)

/-- Generic association-list read (JavaScript map/object read `m[k]`). -/
def assocFind {α : Type} : List (String × α) → String → Option α
  | [], _ => none
  | (k', v') :: rest, k => if k' = k then some v' else assocFind rest k

/-- In-place update of the first entry with the given key (JavaScript
mutation of a property of an object held in a map). -/
def assocUpdate {α : Type} : List (String × α) → String → (α → α) → List (String × α)
  | [], _, _ => []
  | (k', v') :: rest, k, f =>
      if k' = k then (k', f v') :: rest else (k', v') :: assocUpdate rest k f

/-- Map write `m[k] = v`: overwrite in place when the key exists, append
otherwise. -/
def assocSet {α : Type} : List (String × α) → String → α → List (String × α)
  | [], k, v => [(k, v)]
  | (k', v') :: rest, k, v =>
      if k' = k then (k', v) :: rest else (k', v') :: assocSet rest k v

/-- JavaScript string coercion of a primitive. -/
def jsPrimToString : Prim → String
  | .str s => s
  | .num n => toString n
  | .bool b => cond b "true" "false"

mutual

/-- JavaScript string coercion of a value, as performed when a value is
used as a map key (`uriPagesMap[pageUri]`, `hasOwnProperty(p)`): arrays
join their coerced elements with commas, plain objects coerce to
"[object Object]". -/
def jsToString : Value → String
  | .prim p => jsPrimToString p
  | .null => "null"
  | .arr es => String.intercalate "," (jsToStringList es)
  | .obj _ => "[object Object]"

/-- Element-wise coercion of an array's values. -/
def jsToStringList : List Value → List String
  | [] => []
  | v :: rest => jsToString v :: jsToStringList rest

end

/-- Truthiness of the property `k` of a definition object (the pattern
`if (!definition[k])` of the validators and `if (definition[k])` of the
disabled checks). -/
def truthyAt (d : List (String × Value)) (k : String) : Bool :=
  match lookupKey d k with
  | some v => truthyValue v
  | none => false

/-- A UI component (page or unit) as described by the `UIComponent`
typedef of utils.js: full name, render-ordering index, parsed definition,
inheritance chain (`parents`, nearest first) and `children`. The file
paths of template/script files are not observed by any claim and are
elided. -/
structure UIComponent where
  fullName : String
  index : Nat := 1000000
  definition : List (String × Value) := []
  parents : List String := []
  children : List String := []

/-- The builder's working state: `uiComponentsMap`, keyed by full name in
discovery (directory listing) order, which is also the iteration order of
`uiComponentsList`. -/
def BuilderState : Type := List (String × UIComponent)

/-- The `extends` reference of a definition as read by the chaining loop's
`while (parentComponentFullName)` condition: a truthy string names the
parent; an absent or falsy value ends the walk. (A truthy non-string
value would coerce to a key that cannot name a component directory and is
outside the builder's input contract.) -/
def extendsOf (d : List (String × Value)) : Option String :=
  match lookupKey d "extends" with
  | some (.prim (.str s)) => if s = "" then none else some s
  | _ => none

/-- The error message thrown by the chaining loop when a named parent does
not exist (part_004 lines 327-333). -/
def missingParentMsg (componentType : String) (st : BuilderState)
    (selfName parentName : String) : String :=
  let selfParents := ((assocFind st selfName).map UIComponent.parents).getD []
  let immediateChild :=
    if selfParents.isEmpty then selfName else selfParents.getLastD selfName
  "Parent " ++ componentType ++ " \x27" ++ parentName ++ "\x27 of " ++ componentType
    ++ " \x27" ++ immediateChild ++ "\x27 does not exists."

/-- The inner `while (parentComponentFullName)` loop of
`getUiComponentsData` (part_004 lines 325-339), walking the `extends`
chain of component `selfName`: pushes `selfName` onto each visited
parent's `children`, pushes the parent onto `selfName`'s `parents`, merges
the parent's definition into `selfName`'s definition, and continues with
the parent's own `extends` reference. The source loop is unbounded; it is
given `fuel` here, and `none` means the loop is still running after `fuel`
iterations. -/
def chainWalk (componentType selfName : String) :
    Nat → BuilderState → Option String → Option (Except String BuilderState)
  | _, st, none => some (.ok st)
  | 0, _, some _ => none
  | fuel + 1, st, some parentName =>
      match assocFind st parentName with
      | none => some (.error (missingParentMsg componentType st selfName parentName))
      | some parentComp =>
          let st1 := assocUpdate st parentName
            (fun c => { c with children := c.children ++ [selfName] })
          let st2 := assocUpdate st1 selfName
            (fun c => { c with parents := c.parents ++ [parentName],
                               definition := extend c.definition parentComp.definition })
          chainWalk componentType selfName fuel st2 (extendsOf parentComp.definition)

/-- The outer inheritance-chaining loop of `getUiComponentsData`
(part_004 lines 314-340): processes every component in discovery order,
running the chain walk for each. (The `component[index] = i` bookkeeping
write is not observed by any claim; render-relevant indexes are assigned
in `getLookupTable`.) -/
def chainComponents (componentType : String) (fuel : Nat) :
    BuilderState → List String → Option (Except String BuilderState)
  | st, [] => some (.ok st)
  | st, n :: rest =>
      match assocFind st n with
      | none => chainComponents componentType fuel st rest
      | some comp =>
          match chainWalk componentType n fuel st (extendsOf comp.definition) with
          | none => none
          | some (.error e) => some (.error e)
          | some (.ok st') => chainComponents componentType fuel st' rest

/-- The builder state before inheritance chaining: every discovered
component with its parsed definition, empty `parents`/`children` and the
initial index 1000000 (part_004 lines 299-311). -/
def initState (raws : List (String × List (String × Value))) : BuilderState :=
  raws.map (fun r => (r.1, { fullName := r.1, definition := r.2 }))

/-- The static `extends` map of the discovered components: the walk reads
`parentComponent.definition[extends]` after merging, but merging never
changes an `extends` entry (it is a primitive the child already has), so
the walk is driven by this map. -/
def extMap (st0 : BuilderState) (n : String) : Option String :=
  (assocFind st0 n).bind (fun c => extendsOf c.definition)

/-- The inheritance chain of a component determined by the static
`extends` map, nearest ancestor first; `none` when `fuel` iterations do
not reach a component without an `extends` reference. -/
def staticChain (ext : String → Option String) :
    Nat → Option String → Option (List String)
  | _, none => some []
  | 0, some _ => none
  | fuel + 1, some pn => (staticChain ext fuel (ext pn)).map (pn :: ·)

/-- `JSON.stringify` of an array of strings, as used in the validation
error messages. -/
def stringifyNames (names : List String) : String :=
  "[" ++ String.intercalate "," (names.map (fun n => "\x22" ++ n ++ "\x22")) ++ "]"

/-- `validatePageDefinition` (part_004 lines 119-153): checks the
mandatory fields of a page's merged definition; returns the failure
message, or `none` when the definition is valid. `layoutsData` holds the
names of the discovered layouts. -/
def validatePageDefinition (page : UIComponent) (layoutsData : List String) :
    Option String :=
  if ¬ truthyAt page.definition "version" then
    some ("Page \x27" ++ page.fullName ++ "\x27 or its parents "
      ++ stringifyNames page.parents ++ " do not have a version.")
  else if ¬ truthyAt page.definition "uri" then
    some ("Page \x27" ++ page.fullName ++ "\x27 or its parents "
      ++ stringifyNames page.parents ++ " do not have a URI.")
  else
    match lookupKey page.definition "layout" with
    | some v =>
        if ¬ truthyValue v then
          some ("Page \x27" ++ page.fullName ++ "\x27 or its parents "
            ++ stringifyNames page.parents ++ " do not have a layout.")
        else if ¬ layoutsData.contains (jsToString v) then
          some ("Layout \x27" ++ jsToString v ++ "\x27 of page \x27" ++ page.fullName
            ++ "\x27 does not exists.")
        else none
    | none =>
        some ("Page \x27" ++ page.fullName ++ "\x27 or its parents "
          ++ stringifyNames page.parents ++ " do not have a layout.")

/-- The URI string of a page's merged definition, coerced as JavaScript
coerces the value when it is used as a key of `uriPagesMap`. -/
def pageUriOf (page : UIComponent) : String :=
  jsToString ((lookupKey page.definition "uri").getD .null)

/-- The pages loop of `getLookupTable` (part_004 lines 486-513), folded
over the sorted pages array: non-leaf pages (extended by a child) are
skipped, invalid definitions abort the build, disabled pages are skipped,
and registering a URI that is already registered aborts the build with an
error naming the new page and the already registered page. Returns the
`uriPagesMap` association list. (Registered page full names are non-empty
strings, so the `if (uriPagesMap[pageUri])` truthiness test is an
existence test.) -/
def registerPagesLoop (layoutsData : List String) :
    List UIComponent → List (String × String) → Except String (List (String × String))
  | [], acc => .ok acc
  | page :: rest, acc =>
      if page.children ≠ [] then registerPagesLoop layoutsData rest acc
      else
        match validatePageDefinition page layoutsData with
        | some msg => .error msg
        | none =>
            if truthyAt page.definition "disabled" then
              registerPagesLoop layoutsData rest acc
            else
              let pageUri := pageUriOf page
              match assocFind acc pageUri with
              | some registered =>
                  .error ("Cannot register page \x27" ++ page.fullName ++ "\x27 for URI \x27"
                    ++ pageUri ++ "\x27 since page \x27" ++ registered
                    ++ "\x27 already registered.")
              | none => registerPagesLoop layoutsData rest (acc ++ [(pageUri, page.fullName)])

/-- The lookup table as far as the claims observe it: the pages map and
the URI-to-page map (layouts, units and pushed units are built by the same
function but not read by any claim below). -/
structure LookupTable where
  pages : List (String × UIComponent)
  uriPagesMap : List (String × String)

/-- `getLookupTable` (part_004 lines 430-524) around the pages loop: a
cached table is returned when caching is enabled; otherwise the table is
built, and it is published to the application cache only after the build
completed without error (a thrown error propagates before
`application.put`). The result pairs the returned table with the cache
content after the call. -/
def getLookupTable (cachingEnabled : Bool) (cache : Option LookupTable)
    (layoutsData : List String) (pagesArray : List UIComponent)
    (pagesMap : List (String × UIComponent)) :
    Except String (LookupTable × Option LookupTable) :=
  match cachingEnabled, cache with
  | true, some t => .ok (t, some t)
  | _, _ =>
      match registerPagesLoop layoutsData pagesArray [] with
      | .error e => .error e
      | .ok uriMap =>
          let t : LookupTable := ⟨pagesMap, uriMap⟩
          .ok (t, some t)

/-- `parseBoolean` of utils.js (part_004 lines 348-360): booleans are
returned as-is, numbers are positive-tested, strings compare
case-insensitively against "true"/"yes", and otherwise a null or absent
value yields the default (false when no default is given) while any other
object yields true. -/
def parseBoolean (obj : Option Value) (defaultValue : Option Bool) : Bool :=
  match obj with
  | some (.prim (.bool b)) => b
  | some (.prim (.num n)) => n > 0
  | some (.prim (.str s)) => (s.toLower == "true") || (s.toLower == "yes")
  | some .null => defaultValue.getD false
  | some (.arr _) => true
  | some (.obj _) => true
  | none => defaultValue.getD false

/-- The current user as the helpers observe it (`getCurrentUser` returns
this object or null): the permission map is modelled by its key set. -/
structure User where
  username : String
  domain : String
  permissions : List String

/-- `isUnitProcessable` (part_003 lines 136-158): a unit is not
processable when its definition marks it disabled; the permissions gate
runs only when there is a current user AND the definition declares a
permissions array, and it requires every listed permission to be a key of
the user's permission map. -/
def isUnitProcessable (unit : UIComponent) (user : Option User) : Bool :=
  if parseBoolean (lookupKey unit.definition "disabled") (some false) then false
  else
    match user, lookupKey unit.definition "permissions" with
    | some u, some (.arr perms) =>
        perms.all (fun p => u.permissions.contains (jsToString p))
    | _, _ => true

/-- `Array.prototype.indexOf` on an array of strings: the first index of
the element, or -1 when it is absent. -/
def indexOfStr : List String → String → Int
  | [], _ => -1
  | y :: rest, x =>
      if y = x then 0
      else
        let r := indexOfStr rest x
        if r = -1 then -1 else r + 1

/-- The running state of the `getFurthestChildUnit` loop
(src/lib/rendering-handlebars-helpers.js lines 102-129): the current
furthest child, its distance, and the warnings logged so far (each
recording the kept candidate, the ignored candidate and their common
distance). -/
structure GfcuState where
  furthestChild : Option UIComponent
  furthestChildDistance : Int
  warnings : List (String × String × Int)

/-- The loop body of `getFurthestChildUnit`: for every child name the
child unit is looked up (an absent entry would make the JavaScript crash
reading `.parents` of undefined, modelled as an error), its distance is
`childUnit.parents.indexOf(parentUnitFullName)`, a strictly greater
distance replaces the current candidate, and an equal distance logs a
warning (reading the current candidate's name — a crash when there is
none) and keeps the current candidate. -/
def getFurthestChildUnitLoop (units : List (String × UIComponent))
    (parentUnitFullName : String) :
    List String → GfcuState → Except String GfcuState
  | [], st => .ok st
  | name :: rest, st =>
      match assocFind units name with
      | none => .error "TypeError: childUnit is undefined"
      | some childUnit =>
          let distance := indexOfStr childUnit.parents parentUnitFullName
          if st.furthestChildDistance < distance then
            getFurthestChildUnitLoop units parentUnitFullName rest
              ⟨some childUnit, distance, st.warnings⟩
          else if st.furthestChildDistance = distance then
            match st.furthestChild with
            | none => .error "TypeError: furthestChild is null"
            | some fc =>
                getFurthestChildUnitLoop units parentUnitFullName rest
                  ⟨st.furthestChild, st.furthestChildDistance,
                   st.warnings ++ [(fc.fullName, childUnit.fullName, distance)]⟩
          else getFurthestChildUnitLoop units parentUnitFullName rest st

/-- `getFurthestChildUnit` (src/lib/rendering-handlebars-helpers.js lines
102-129): a unit with no children is its own processing unit; otherwise
the loop over its `children` selects the candidate. -/
def getFurthestChildUnit (units : List (String × UIComponent))
    (parentUnit : UIComponent) : Except String GfcuState :=
  if parentUnit.children = [] then .ok ⟨some parentUnit, -1, []⟩
  else getFurthestChildUnitLoop units parentUnit.fullName parentUnit.children
    ⟨none, -1, []⟩

/-- Proof-side companion of the loop: the selected candidate and its
distance after folding the resolved children over a starting candidate. -/
def pickBest (d : UIComponent → Int) (dist : Int) (fc : UIComponent) :
    List UIComponent → UIComponent × Int
  | [] => (fc, dist)
  | u :: rest =>
      if dist < d u then pickBest d (d u) u rest else pickBest d dist fc rest

/-- Proof-side companion of the loop: the warnings it accumulates. -/
def tieWarnings (d : UIComponent → Int) (dist : Int) (fc : UIComponent) :
    List UIComponent → List (String × String × Int)
  | [] => []
  | u :: rest =>
      if dist < d u then tieWarnings d (d u) u rest
      else if dist = d u then
        (fc.fullName, u.fullName, dist) :: tieWarnings d dist fc rest
      else tieWarnings d dist fc rest

/-- Modelled from the spec: the `ZoneContent` class required by part_003
is a revision of data-structures.js that is not among the source files
(the file present, src/lib/data-structures.js, is an earlier revision with
`ContentHolder`). Per spec §3, a ZoneContent is "one contribution to a
zone by one fragment instance": it holds the rendered HTML, the
`isOverridden` flag and the `expired` flag; part_003 constructs one per
`zone` helper call (`new ZoneContent(zoneName, contentProvider)` followed
by one `addContent`). Sub-zone entries are not observed by the claims
below and are elided. -/
structure ZoneContent where
  zoneName : String
  provider : UIComponent
  isOverridden : Bool := false
  content : String := ""
  expired : Bool := false

/-- Modelled from the spec: the `Zone` revision used by part_003, per
spec §3 a top-level named slot owned by one page holding ordered
`contents: map<providerFullName, ZoneContent[]>` (modelled keyed by the
provider component, matching `getContentProviders`, which returns the
providers in insertion order). Resources are not observed by the claims
below and are elided. -/
structure Zone where
  name : String
  owner : UIComponent
  contents : List (UIComponent × List ZoneContent)

/-- Modelled from the spec: `Zone.getContents(providerFullName)` — the
ordered contributions of one provider, or null (`none`) when the provider
never wrote this zone. -/
def Zone.getContents (z : Zone) (providerFullName : String) :
    Option (List ZoneContent) :=
  match z.contents.find? (fun e => e.1.fullName == providerFullName) with
  | some e => some e.2
  | none => none

/-- Modelled from the spec: `Zone.getContentProviders()` — the providers
that wrote this zone, in insertion order. -/
def Zone.getContentProviders (z : Zone) : List UIComponent :=
  z.contents.map (·.1)

/-- Modelled from the spec: `Zone.addContent(zoneContent)` — appends the
contribution to its provider's ordered list, creating the provider entry
at the end on first contribution. -/
def Zone.addContent (z : Zone) (zc : ZoneContent) : Zone :=
  { z with contents := addToEntries z.contents zc }
where
  addToEntries : List (UIComponent × List ZoneContent) → ZoneContent →
      List (UIComponent × List ZoneContent)
    | [], zc => [(zc.provider, [zc])]
    | e :: rest, zc =>
        if e.1.fullName = zc.provider.fullName then (e.1, e.2 ++ [zc]) :: rest
        else e :: addToEntries rest zc

/-- The zones tree of one render pass: the top-level zones by name
(`ZoneTree` of data-structures.js). -/
def ZonesTree : Type := List (String × Zone)

/-- The `zone` Handlebars helper of part_003 (lines 455-501) on its
top-level main-zone branch (the `processingZones` stack is empty): the
zone is created owned by the current page if absent; a zone owned by a
different page is left untouched (silent no-op); when the provider's last
contribution is flagged `isOverridden` the new content is discarded;
otherwise a new ZoneContent carrying the `override` hash parameter
(default true) and the rendered inner HTML is appended. The sub-zone
branch (a zone open inside another zone) is not taken by any claim proved
against this model. -/
def zoneHelper (zonesTree : ZonesTree) (currentPage provider : UIComponent)
    (zoneName : String) (isOverride : Bool) (innerHtml : String) : ZonesTree :=
  match assocFind zonesTree zoneName with
  | some mainZone =>
      if mainZone.owner.fullName ≠ currentPage.fullName then zonesTree
      else
        match mainZone.getContents provider.fullName with
        | some cs =>
            if (cs.getLastD { zoneName := zoneName, provider := provider }).isOverridden
            then zonesTree
            else
              assocUpdate zonesTree zoneName
                (fun z => z.addContent
                  { zoneName := zoneName, provider := provider,
                    isOverridden := isOverride, content := innerHtml })
        | none =>
            assocUpdate zonesTree zoneName
              (fun z => z.addContent
                { zoneName := zoneName, provider := provider,
                  isOverridden := isOverride, content := innerHtml })
  | none =>
      let mainZone : Zone := ⟨zoneName, currentPage, []⟩
      assocSet zonesTree zoneName
        (mainZone.addContent
          { zoneName := zoneName, provider := provider,
            isOverridden := isOverride, content := innerHtml })

/-- `compareUiComponents` of part_003 (lines 39-45): comparison by the
components' `index` values. -/
def compareUiComponents (a b : UIComponent) : Int :=
  if a.index = b.index then 0 else if a.index > b.index then 1 else -1

/-- `contentProviders.sort(compareUiComponents)`: JavaScript sorts with
the comparator above, i.e. ascending by `index`. The sorting algorithm is
unspecified, so any correct sort models it; insertion sort is used here,
and the theorems show the result is the unique index-sorted permutation
when the indexes are distinct. -/
def sortUiComponents (l : List UIComponent) : List UIComponent :=
  l.insertionSort (fun a b => a.index ≤ b.index)

/-- The `defineZone` Handlebars helper of part_003 (lines 536-659) on its
top-level branch, reading a main zone by name outside any protected
scope: an unopened zone falls back to the helper's default inner markup;
otherwise the contributing providers are sorted by `compareUiComponents`
and each provider's contributions are emitted in their stored order.
(Resource emission and sub-zone re-entry are not observed by the claims
proved against this model.) -/
def defineZoneHelper (zonesTree : ZonesTree) (zoneName : String)
    (defaultHtml : String) : String :=
  match assocFind zonesTree zoneName with
  | none => defaultHtml
  | some mainZone =>
      String.join ((sortUiComponents mainZone.getContentProviders).map
        (fun p => String.join
          (((mainZone.getContents p.fullName).getD []).map (·.content))))

/-- One zone buffer of the older helper file
(src/lib/rendering-handlebars-helpers.js): the `override` flag captured at
first write and the HTML pieces pushed since (`mainZoneData` /
`subZoneData` objects, lines 391-476). -/
structure MainZoneData where
  isOverridden : Bool
  buffer : List String

/-- Per-provider data of one zone of the older helper file: the main-zone
buffer and the optional map of sub-zone buffers (`subZonesData`, null
until the first sub-zone write). -/
structure UIComponentData where
  mainZoneData : Option MainZoneData
  subZonesData : Option (List (String × MainZoneData))

/-- `renderingData.zones` of the older helper file: main-zone name →
provider full name → per-provider zone data. -/
def ZonesModel : Type := List (String × List (String × UIComponentData))

/-- The `zone` Handlebars helper of src/lib/rendering-handlebars-helpers.js
(lines 352-480): the switch on the open-zones stack picks the main-zone
name (empty stack), registers a sub-zone under the single open zone
(one-element stack), or throws "Too many sub-zones" (deeper stack); a call
outside a page is a silent no-op; otherwise the rendered inner HTML is
recorded — appended when the existing buffer is not flagged overridden,
discarded when it is, and freshly created otherwise. Returns the updated
zones map. -/
def zoneHelperSL (zones : ZonesModel) (stack : List String)
    (currentPageFullName currentUnitFullName : Option String)
    (zoneName : String) (isOverride : Bool) (innerHtml : String) :
    Except String ZonesModel :=
  match stack with
  | [] => zoneHelperSLWrite zones zoneName none currentPageFullName
      currentUnitFullName isOverride innerHtml
  | [m] => zoneHelperSLWrite zones m (some zoneName) currentPageFullName
      currentUnitFullName isOverride innerHtml
  | m :: _ :: _ => .error ("Too many sub-zones in zone\x27" ++ m ++ "\x27.")
where
  /-- The recording part of the helper after the stack dispatch (lines
  373-476). -/
  zoneHelperSLWrite (zones : ZonesModel) (mainZoneName : String)
      (subZoneName : Option String) (currentPageFullName currentUnitFullName : Option String)
      (isOverride : Bool) (innerHtml : String) : Except String ZonesModel :=
    match currentPageFullName with
    | none => .ok zones
    | some pageFullName =>
        let uiComponentFullName := currentUnitFullName.getD pageFullName
        match assocFind zones mainZoneName with
        | some zoneData =>
            match assocFind zoneData uiComponentFullName with
            | some uiComponentData =>
                match subZoneName with
                | some szn =>
                    let newUcd :=
                      match uiComponentData.subZonesData with
                      | some szs =>
                          match assocFind szs szn with
                          | some szd =>
                              if szd.isOverridden then uiComponentData
                              else
                                let szs2 := assocUpdate szs szn
                                  (fun d => { d with buffer := d.buffer ++ [innerHtml] })
                                { uiComponentData with subZonesData := some szs2 }
                          | none =>
                              let szs2 := assocSet szs szn ⟨isOverride, [innerHtml]⟩
                              { uiComponentData with subZonesData := some szs2 }
                      | none =>
                          let szs2 := [(szn, (⟨isOverride, [innerHtml]⟩ : MainZoneData))]
                          { uiComponentData with subZonesData := some szs2 }
                    .ok (assocUpdate zones mainZoneName
                      (fun zd => assocSet zd uiComponentFullName newUcd))
                | none =>
                    let newUcd :=
                      match uiComponentData.mainZoneData with
                      | some mzd =>
                          if mzd.isOverridden then uiComponentData
                          else
                            let mzd2 := { mzd with buffer := mzd.buffer ++ [innerHtml] }
                            { uiComponentData with mainZoneData := some mzd2 }
                      | none =>
                          let mzd2 : MainZoneData := ⟨isOverride, [innerHtml]⟩
                          { uiComponentData with mainZoneData := some mzd2 }
                    .ok (assocUpdate zones mainZoneName
                      (fun zd => assocSet zd uiComponentFullName newUcd))
            | none =>
                .ok (assocUpdate zones mainZoneName
                  (fun zd => assocSet zd uiComponentFullName
                    ⟨some ⟨isOverride, [innerHtml]⟩, none⟩))
        | none =>
            .ok (assocSet zones mainZoneName
              [(uiComponentFullName, ⟨some ⟨isOverride, [innerHtml]⟩, none⟩)])

/-- `String.prototype.trim` of JavaScript: whitespace stripped from both
ends (modelled on the character list to keep it kernel-computable). -/
def jsTrim (s : String) : String :=
  ⟨((s.data.dropWhile Char.isWhitespace).reverse.dropWhile Char.isWhitespace).reverse⟩

/-- A template as the unit helper observes it: the string its evaluation
produces and the zone writes its evaluation performs (the only observable
side effects of evaluating a compiled template). -/
structure Tmpl where
  out : String
  writes : List String

/-- The output-selection part of the `unit` Handlebars helper of part_003
(lines 398-446): the unit's own template is evaluated first (its trimmed
output becomes the returned HTML when non-empty), then every ancestor
template is evaluated nearest to furthest — unconditionally, accumulating
zone writes — and an ancestor's trimmed output is kept only when the
returned HTML is still empty. An absent template file is skipped.
Returns the unit's HTML and the zone writes of all evaluated templates in
evaluation order. -/
def unitRenderLoop : List (Option Tmpl) → String × List String → String × List String
  | [], acc => acc
  | pt :: rest, acc =>
      match pt with
      | some t =>
          unitRenderLoop rest
            (if acc.1.length = 0 ∧ (jsTrim t.out).length > 0 then jsTrim t.out else acc.1,
             acc.2 ++ t.writes)
      | none => unitRenderLoop rest acc

/-- See `unitRenderLoop`: the self template is evaluated first, then the
loop over the ancestors runs. -/
def unitRender (selfTemplate : Option Tmpl) (parentTemplates : List (Option Tmpl)) :
    String × List String :=
  let start : String × List String :=
    match selfTemplate with
    | some t => (if (jsTrim t.out).length > 0 then jsTrim t.out else "", t.writes)
    | none => ("", [])
  unitRenderLoop parentTemplates start

/-- The processability gate of the `unit` helper (part_003 lines
347-351): a non-processable unit renders as the empty string without
evaluating any template; a processable one renders normally. -/
def unitHelperHtml (unit : UIComponent) (user : Option User)
    (selfTemplate : Option Tmpl) (parentTemplates : List (Option Tmpl)) :
    String × List String :=
  if isUnitProcessable unit user then unitRender selfTemplate parentTemplates
  else ("", [])

/-- Whether a value is a primitive (used to state the scalar-field
inheritance law decidably). -/
def Value.isPrim : Value → Bool
  | .prim _ => true
  | _ => false

/-- Every occurrence of field `f` in the definition is primitive-valued
(or the field is absent). -/
def scalarOnlyAt (d : List (String × Value)) (f : String) : Bool :=
  d.all (fun e => e.1 ≠ f || e.2.isPrim)

/-- The templates that exist, in evaluation order (self first, then
ancestors nearest to furthest). -/
def presentTmpls (ts : List (Option Tmpl)) : List Tmpl :=
  ts.filterMap id

/-- The first non-empty trimmed output among the given templates, or the
empty string. -/
def firstNonEmptyTrim (ts : List Tmpl) : String :=
  ((ts.map (fun t => jsTrim t.out)).find? (fun h => h.length != 0)).getD ""

/-- All zone writes of the given templates, in evaluation order. -/
def allWrites (ts : List Tmpl) : List String :=
  ts.foldr (fun t acc => t.writes ++ acc) []

/-- The children lists produced by inheritance chaining of the given raw
components, read back for one component (used to exhibit concrete
chaining results). -/
def childrenAfterChaining (raws : List (String × List (String × Value)))
    (fuel : Nat) (n : String) : Option (List String) :=
  match chainComponents "unit" fuel (initState raws) (raws.map (·.1)) with
  | some (.ok st) => (assocFind st n).map (·.children)
  | _ => none

/-- Two units whose `extends` references form a cycle (the failing input
of the cycle claim). -/
def cyclicRaws : List (String × List (String × Value)) :=
  [("a.b", [("extends", .prim (.str "a.c"))]),
   ("a.c", [("extends", .prim (.str "a.b"))])]

/-- A three-component chain `ns.unit.c extends ns.unit.b extends
ns.unit.a`, used to exhibit the content of `children` after chaining. -/
def threeChainRaws : List (String × List (String × Value)) :=
  [("ns.unit.a", [("version", .prim (.str "1.0.0"))]),
   ("ns.unit.b", [("extends", .prim (.str "ns.unit.a"))]),
   ("ns.unit.c", [("extends", .prim (.str "ns.unit.b"))])]

/-- Concrete page for the zone-composition examples. -/
def examplePage : UIComponent :=
  { fullName := "ns.page.home", index := 1 }

/-- Concrete unit (the furthest child actually being rendered) for the
zone-composition examples. -/
def exampleUnit : UIComponent :=
  { fullName := "ns.unit.child", index := 0 }

/-- Two valid leaf pages carrying the same URI `/home` (the failing input
of the duplicate-URI claim). -/
def dupPageOne : UIComponent :=
  { fullName := "ns.page.one",
    definition := [("version", .prim (.str "1.0.0")),
                   ("uri", .prim (.str "/home")),
                   ("layout", .prim (.str "main"))] }

/-- The second page with the duplicated URI. -/
def dupPageTwo : UIComponent :=
  { fullName := "ns.page.two",
    definition := [("version", .prim (.str "1.0.0")),
                   ("uri", .prim (.str "/home")),
                   ("layout", .prim (.str "main"))] }

/-- A mentioned unit with two children at distances 0 and 1 (for the
furthest-child witness). -/
def baseUnit : UIComponent :=
  { fullName := "ns.unit.base", children := ["ns.unit.x", "ns.unit.y"] }

/-- Direct child of `baseUnit` (distance 0). -/
def childUnitX : UIComponent :=
  { fullName := "ns.unit.x", parents := ["ns.unit.base"] }

/-- Grandchild of `baseUnit` through `ns.unit.mid` (distance 1). -/
def childUnitY : UIComponent :=
  { fullName := "ns.unit.y", parents := ["ns.unit.mid", "ns.unit.base"] }

/-- The units map holding the two children of `baseUnit`. -/
def exampleUnitsTable : List (String × UIComponent) :=
  [("ns.unit.x", childUnitX), ("ns.unit.y", childUnitY)]

/-- A concrete contribution of the example unit (for the ordering
witness). -/
def unitContribution : ZoneContent :=
  { zoneName := "content", provider := exampleUnit, content := "<u>" }

/-- A concrete contribution of the example page (for the ordering
witness). -/
def pageContribution : ZoneContent :=
  { zoneName := "content", provider := examplePage, content := "<p>" }

/-- The two-component cyclic state invariant: `a.b` and `a.c` are present
and their definitions still carry the original mutual `extends`
references. -/
def cyc2 (st : BuilderState) : Prop :=
  (∃ c, assocFind st "a.b" = some c
    ∧ c.definition = [("extends", Value.prim (.str "a.c"))])
  ∧ (∃ c, assocFind st "a.c" = some c
    ∧ c.definition = [("extends", Value.prim (.str "a.b"))])

/-- The inheritance chain of component `m` determined by the static
`extends` map, nearest ancestor first (empty when the walk does not
terminate within `fuel`). -/
def chainOf (st0 : BuilderState) (fuel : Nat) (m : String) : List String :=
  (staticChain (extMap st0) fuel (extMap st0 m)).getD []

/-- State invariant of the outer chaining loop after processing the
components `pre` (in order): every original entry is still present, its
`extends` reference is unchanged and still primitive-valued, its
`parents` is its full static chain when processed (and still empty
otherwise), and its `children` holds exactly the processed components
whose chains pass through it, in processing order. -/
def ChainInv (st0 : BuilderState) (fuel : Nat) (pre : List String)
    (st : BuilderState) : Prop :=
  ∀ m c0, assocFind st0 m = some c0 →
    ∃ c, assocFind st m = some c
      ∧ extendsOf c.definition = extendsOf c0.definition
      ∧ (∀ v, ("extends", v) ∈ c.definition → ∃ q, v = Value.prim q)
      ∧ c.parents = (if m ∈ pre then chainOf st0 fuel m else [])
      ∧ c.children = pre.filter (fun p => decide (m ∈ chainOf st0 fuel p))

/-- State invariant in the middle of the chain walk of component `n`: the
ancestors `done` have been visited, so `n`'s parents list holds them and
each of them has `n` appended to its children. -/
def MidInv (st0 : BuilderState) (fuel : Nat) (pre : List String) (n : String)
    (done : List String) (st : BuilderState) : Prop :=
  ∀ m c0, assocFind st0 m = some c0 →
    ∃ c, assocFind st m = some c
      ∧ extendsOf c.definition = extendsOf c0.definition
      ∧ (∀ v, ("extends", v) ∈ c.definition → ∃ q, v = Value.prim q)
      ∧ c.parents = (if m = n then done
          else if m ∈ pre then chainOf st0 fuel m else [])
      ∧ c.children = pre.filter (fun p => decide (m ∈ chainOf st0 fuel p))
          ++ (if m ∈ done then [n] else [])

/-! Basic lemmas about property reads and writes. -/

theorem lookupKey_setKey (c : List (String × Value)) (k f : String) (v : Value) :
    lookupKey (setKey c k v) f = if k = f then some v else lookupKey c f := by
  induction c with
  | nil =>
      simp only [setKey, lookupKey]
  | cons e rest ih =>
      obtain ⟨k', v'⟩ := e
      by_cases h1 : k' = k
      · subst h1
        simp only [setKey, if_pos rfl, lookupKey]
        by_cases h2 : k' = f <;> simp [h2]
      · simp only [setKey, if_neg h1, lookupKey]
        by_cases h2 : k' = f
        · subst h2
          rw [if_pos rfl, if_neg (fun h => h1 h.symm), if_pos rfl]
        · rw [if_neg h2, if_neg h2, ih]

theorem lookupKey_extendProps (parent : List (String × Value)) (c : List (String × Value))
    (f : String) (h : ∀ v, (f, v) ∈ parent → ∃ p, v = Value.prim p) :
    lookupKey (extendProps c parent) f = (lookupKey c f).or (lookupKey parent f) := by
  induction parent generalizing c with
  | nil =>
      simp only [extendProps, lookupKey, Option.or_none]
  | cons e rest ih =>
      obtain ⟨k, v⟩ := e
      have hrest : ∀ v, (f, v) ∈ rest → ∃ p, v = Value.prim p :=
        fun v hv => h v (List.mem_cons_of_mem _ hv)
      match v with
      | .arr es =>
          have hk : k ≠ f := by
            intro hkf; subst hkf
            rcases h (.arr es) (List.mem_cons_self _ _) with ⟨p, hp⟩
            exact Value.noConfusion hp
          simp only [extendProps]
          rw [ih _ hrest, lookupKey_setKey, if_neg hk]
          simp only [lookupKey, if_neg hk]
      | .obj ps =>
          have hk : k ≠ f := by
            intro hkf; subst hkf
            rcases h (.obj ps) (List.mem_cons_self _ _) with ⟨p, hp⟩
            exact Value.noConfusion hp
          simp only [extendProps]
          rw [ih _ hrest, lookupKey_setKey, if_neg hk]
          simp only [lookupKey, if_neg hk]
      | .null =>
          have hk : k ≠ f := by
            intro hkf; subst hkf
            rcases h .null (List.mem_cons_self _ _) with ⟨p, hp⟩
            exact Value.noConfusion hp
          simp only [extendProps]
          rw [ih _ hrest, lookupKey_setKey, if_neg hk]
          simp only [lookupKey, if_neg hk]
      | .prim p =>
          simp only [extendProps]
          by_cases hk : k = f
          · subst hk
            cases hc : lookupKey c k with
            | some w =>
                rw [if_pos (show (some w).isSome = true from rfl), ih _ hrest, hc]
                simp only [Option.or_some]
            | none =>
                rw [if_neg (by simp), ih _ hrest, lookupKey_setKey, if_pos rfl]
                simp [lookupKey, Option.none_or, Option.or_some]
          · cases hc : lookupKey c k with
            | some w =>
                rw [if_pos (show (some w).isSome = true from rfl), ih _ hrest]
                simp only [lookupKey, if_neg hk]
            | none =>
                rw [if_neg (by simp), ih _ hrest, lookupKey_setKey, if_neg hk]
                simp only [lookupKey, if_neg hk]

theorem lookupKey_mergeDefinitions (ancestors : List (List (String × Value)))
    (own : List (String × Value)) (f : String)
    (h : ∀ d ∈ ancestors, ∀ v, (f, v) ∈ d → ∃ p, v = Value.prim p) :
    lookupKey (mergeDefinitions own ancestors) f
      = (lookupKey own f).or (firstDeclared ancestors f) := by
  induction ancestors generalizing own with
  | nil =>
      simp only [mergeDefinitions, List.foldl_nil, firstDeclared, Option.or_none]
  | cons d ds ih =>
      have hd : ∀ v, (f, v) ∈ d → ∃ p, v = Value.prim p :=
        h d (List.mem_cons_self _ _)
      have hds : ∀ d' ∈ ds, ∀ v, (f, v) ∈ d' → ∃ p, v = Value.prim p :=
        fun d' hd' => h d' (List.mem_cons_of_mem _ hd')
      show lookupKey (mergeDefinitions (extend own d) ds) f = _
      rw [ih _ hds, show extend own d = extendProps own d from rfl,
          lookupKey_extendProps _ _ _ hd, firstDeclared, Option.or_assoc]

theorem scalarOnlyAt_spec (ancestors : List (List (String × Value))) (f : String)
    (h : ancestors.all (fun d => scalarOnlyAt d f) = true) :
    ∀ d ∈ ancestors, ∀ v, (f, v) ∈ d → ∃ p, v = Value.prim p := by
  intro d hd v hv
  have h1 : scalarOnlyAt d f = true := List.all_eq_true.mp h d hd
  unfold scalarOnlyAt at h1
  have h2 := List.all_eq_true.mp h1 (f, v) hv
  cases v with
  | prim p => exact ⟨p, rfl⟩
  | null => simp [Value.isPrim] at h2
  | arr es => simp [Value.isPrim] at h2
  | obj ps => simp [Value.isPrim] at h2

/-- C4: for a component whose `extends` chain yields the ancestor
definitions `ancestors` (nearest first), definition merging gives every
scalar (primitive-only) field its own original value when the component's
definition declares it, and otherwise the value of the nearest ancestor
definition that declares it. -/
theorem merged_scalar_field_law (own : List (String × Value))
    (ancestors : List (List (String × Value))) (f : String)
    (h : ancestors.all (fun d => scalarOnlyAt d f) = true) :
    (∀ p, lookupKey own f = some (.prim p) →
        lookupKey (mergeDefinitions own ancestors) f = some (.prim p))
    ∧ (lookupKey own f = none →
        lookupKey (mergeDefinitions own ancestors) f = firstDeclared ancestors f) := by
  have hp := scalarOnlyAt_spec ancestors f h
  rw [lookupKey_mergeDefinitions _ _ _ hp]
  constructor
  · intro p hown
    rw [hown, Option.or_some]
  · intro hown
    rw [hown, Option.none_or]

/-- Witness for C4: a two-ancestor chain; the component declares `title`
itself (its value survives) and omits `color`, which is taken from the
nearest ancestor declaring it. -/
theorem merged_scalar_field_law_witness :
    ([[("version", Value.prim (.str "1")), ("title", Value.prim (.str "parent"))],
      [("color", Value.prim (.str "red"))]].all
        (fun d => scalarOnlyAt d "color") = true)
    ∧ lookupKey (mergeDefinitions [("title", Value.prim (.str "child"))]
        [[("version", Value.prim (.str "1")), ("title", Value.prim (.str "parent"))],
         [("color", Value.prim (.str "red"))]]) "color"
      = firstDeclared
          [[("version", Value.prim (.str "1")), ("title", Value.prim (.str "parent"))],
           [("color", Value.prim (.str "red"))]] "color" :=
  ⟨by simp [scalarOnlyAt, Value.isPrim],
   (merged_scalar_field_law _ _ _ (by simp [scalarOnlyAt, Value.isPrim])).2
     (by simp [lookupKey])⟩

theorem unitRenderLoop_spec (ps : List (Option Tmpl)) (r : String) (ev : List String) :
    unitRenderLoop ps (r, ev) =
      ((if r.length = 0 then firstNonEmptyTrim (presentTmpls ps) else r),
       ev ++ allWrites (presentTmpls ps)) := by
  induction ps generalizing r ev with
  | nil =>
      by_cases hr : r.length = 0
      · have : r = "" := by
          cases r with
          | mk data => cases data with
            | nil => rfl
            | cons c cs => simp [String.length] at hr
        subst this
        simp [unitRenderLoop, presentTmpls, firstNonEmptyTrim, allWrites]
      · simp [unitRenderLoop, presentTmpls, firstNonEmptyTrim, allWrites, hr]
  | cons pt rest ih =>
      match pt with
      | none =>
          rw [show unitRenderLoop (none :: rest) (r, ev) = unitRenderLoop rest (r, ev)
                from rfl, ih]
          simp [presentTmpls]
      | some t =>
          rw [show unitRenderLoop (some t :: rest) (r, ev)
                = unitRenderLoop rest
                    (if r.length = 0 ∧ (jsTrim t.out).length > 0 then jsTrim t.out else r,
                     ev ++ t.writes) from rfl]
          by_cases hr : r.length = 0
          · by_cases ht : (jsTrim t.out).length > 0
            · rw [if_pos ⟨hr, ht⟩, ih]
              have htne : (jsTrim t.out).length ≠ 0 := Nat.pos_iff_ne_zero.mp ht
              simp [presentTmpls, firstNonEmptyTrim, allWrites, hr, htne,
                List.find?_cons, if_neg htne]
            · rw [if_neg (fun hh => ht hh.2), ih]
              have hte : (jsTrim t.out).length = 0 := Nat.eq_zero_of_not_pos ht
              simp [presentTmpls, firstNonEmptyTrim, allWrites, hr, hte]
          · rw [if_neg (fun hh => hr hh.1), ih]
            simp [presentTmpls, firstNonEmptyTrim, allWrites, hr]

/-- C5: the HTML returned by the unit helper is the first non-empty
trimmed template output among the processing unit itself and then its
ancestors nearest to furthest; every present template is evaluated (its
zone writes are accumulated in evaluation order) even after a non-empty
output was found. In particular an empty (all-whitespace) child template
over a parent rendering `<p>parent</p>` returns `<p>parent</p>`. -/
theorem unit_returns_first_nonempty_trimmed :
    (∀ (s : Option Tmpl) (ps : List (Option Tmpl)),
      (unitRender s ps).1 = firstNonEmptyTrim (presentTmpls (s :: ps))
      ∧ (unitRender s ps).2 = allWrites (presentTmpls (s :: ps)))
    ∧ (unitRender (some ⟨"  ", []⟩) [some ⟨"<p>parent</p>", ["w1"]⟩]).1
        = "<p>parent</p>" := by
  have main : ∀ (s : Option Tmpl) (ps : List (Option Tmpl)),
      (unitRender s ps).1 = firstNonEmptyTrim (presentTmpls (s :: ps))
      ∧ (unitRender s ps).2 = allWrites (presentTmpls (s :: ps)) := by
    intro s ps
    match s with
    | none =>
        rw [show unitRender none ps = unitRenderLoop ps ("", []) from rfl,
            unitRenderLoop_spec]
        simp [presentTmpls]
    | some t =>
        rw [show unitRender (some t) ps
              = unitRenderLoop ps
                  (if (jsTrim t.out).length > 0 then jsTrim t.out else "", t.writes) from rfl]
        by_cases ht : (jsTrim t.out).length > 0
        · rw [if_pos ht, unitRenderLoop_spec]
          have htne : (jsTrim t.out).length ≠ 0 := Nat.pos_iff_ne_zero.mp ht
          simp [presentTmpls, firstNonEmptyTrim, allWrites, htne]
        · rw [if_neg ht, unitRenderLoop_spec]
          have hte : (jsTrim t.out).length = 0 := Nat.eq_zero_of_not_pos ht
          simp [presentTmpls, firstNonEmptyTrim, allWrites, hte]
  refine ⟨main, ?_⟩
  rw [(main _ _).1]
  decide

/-- C10: a unit whose definition declares a permissions list and whose
disabled flag parses false is processable when there is no current user
(`getCurrentUser` returned null), and the unit helper's gate then renders
it normally — the permission gate runs only when a user object is
present. -/
theorem anonymous_user_never_denied (unit : UIComponent) (perms : List Value)
    (hdis : parseBoolean (lookupKey unit.definition "disabled") (some false) = false)
    (_hperm : lookupKey unit.definition "permissions" = some (.arr perms))
    (selfTemplate : Option Tmpl) (parentTemplates : List (Option Tmpl)) :
    isUnitProcessable unit none = true
    ∧ unitHelperHtml unit none selfTemplate parentTemplates
        = unitRender selfTemplate parentTemplates := by
  have hproc : isUnitProcessable unit none = true := by
    unfold isUnitProcessable
    rw [hdis]
    simp
  exact ⟨hproc, by unfold unitHelperHtml; rw [hproc]; simp⟩

/-- Witness for C10: a unit declaring a permissions list, rendered with no
current user. -/
theorem anonymous_user_never_denied_witness :
    (parseBoolean (lookupKey [("version", Value.prim (.str "1.0.0")),
        ("permissions", Value.arr [Value.prim (.str "/permission/admin")])]
        "disabled") (some false) = false)
    ∧ isUnitProcessable
        { fullName := "ns.unit.secure",
          definition := [("version", Value.prim (.str "1.0.0")),
            ("permissions", Value.arr [Value.prim (.str "/permission/admin")])] }
        none = true := by
  refine ⟨by simp [parseBoolean, lookupKey], ?_⟩
  exact (anonymous_user_never_denied
    { fullName := "ns.unit.secure",
      definition := [("version", Value.prim (.str "1.0.0")),
        ("permissions", Value.arr [Value.prim (.str "/permission/admin")])] }
    [Value.prim (.str "/permission/admin")]
    (by simp [parseBoolean, lookupKey])
    (by simp [lookupKey])
    none []).1

/-- C2 counterexample: the furthest child writes top-level zone `content`
with override=false, the ancestor (same provider, processed later in the
same unit-helper pass) writes it afterwards; the final emission is the
descendant's content followed by the ancestor's — not the ancestor's
followed by the descendant's as the claim states. -/
theorem zone_append_order_counterexample :
    defineZoneHelper
      (zoneHelper (zoneHelper [] examplePage exampleUnit "content" false "<div>child</div>")
        examplePage exampleUnit "content" true "<div>parent</div>")
      "content" "" = "<div>child</div><div>parent</div>"
    ∧ "<div>child</div><div>parent</div>" ≠ "<div>parent</div><div>child</div>" := by
  constructor
  · decide
  · decide

/-- C2 amended: when the furthest child writes a top-level zone with
override=true, a later write by a more distant ancestor of the same
provider is discarded entirely (the descendant's content replaces the
ancestor's); when the child wrote with override=false, the ancestor's
content is preserved but is emitted after the descendant's content — the
descendant's contribution comes first in the final emission, the
ancestor's is appended after it. -/
theorem zone_override_append_order (page provider : UIComponent) (z dflt : String)
    (h1 h2 : String) (ov2 : Bool) :
    defineZoneHelper (zoneHelper (zoneHelper [] page provider z true h1)
        page provider z ov2 h2) z dflt = h1
    ∧ defineZoneHelper (zoneHelper (zoneHelper [] page provider z false h1)
        page provider z ov2 h2) z dflt = h1 ++ h2 := by
  constructor
  · simp [zoneHelper, defineZoneHelper, Zone.addContent, Zone.addContent.addToEntries,
      assocFind, assocSet, assocUpdate, Zone.getContents, Zone.getContentProviders,
      sortUiComponents, List.insertionSort, List.orderedInsert, String.join]
  · simp [zoneHelper, defineZoneHelper, Zone.addContent, Zone.addContent.addToEntries,
      assocFind, assocSet, assocUpdate, Zone.getContents, Zone.getContentProviders,
      sortUiComponents, List.insertionSort, List.orderedInsert, String.join]

instance : IsTotal UIComponent (fun a b => a.index ≤ b.index) :=
  ⟨fun a b => Nat.le_total a.index b.index⟩

instance : IsTrans UIComponent (fun a b => a.index ≤ b.index) :=
  ⟨fun _ _ _ h1 h2 => Nat.le_trans h1 h2⟩

instance : IsAntisymm UIComponent (fun a b => a.index < b.index) :=
  ⟨fun _ _ h1 h2 => absurd h1 (Nat.lt_asymm h2)⟩

theorem sortUiComponents_perm (l : List UIComponent) : (sortUiComponents l).Perm l :=
  List.perm_insertionSort _ l

theorem sortUiComponents_sorted_lt (l : List UIComponent)
    (hidx : (l.map (fun c => c.index)).Nodup) :
    List.Sorted (fun a b => a.index < b.index) (sortUiComponents l) := by
  have hle : List.Sorted (fun a b : UIComponent => a.index ≤ b.index)
      (sortUiComponents l) :=
    List.sorted_insertionSort _ l
  have hn : ((sortUiComponents l).map (fun c => c.index)).Nodup :=
    ((sortUiComponents_perm l).map _).nodup_iff.mpr hidx
  have hne : (sortUiComponents l).Pairwise (fun a b => a.index ≠ b.index) :=
    List.pairwise_map.mp hn
  exact (hle.and hne).imp (fun h => Nat.lt_of_le_of_ne h.1 h.2)

theorem find?_perm_of_unique {α : Type} (p : α → Bool) (l l' : List α)
    (h : l.Perm l') (hu : ∀ a ∈ l, ∀ b ∈ l, p a → p b → a = b) :
    l.find? p = l'.find? p := by
  cases hf : l.find? p with
  | some a =>
      have hpa := List.find?_some hf
      have hma := List.mem_of_find?_eq_some hf
      cases hf' : l'.find? p with
      | some b =>
          have hpb := List.find?_some hf'
          have hmb : b ∈ l := h.symm.subset (List.mem_of_find?_eq_some hf')
          rw [hu a hma b hmb hpa hpb]
      | none =>
          have := List.find?_eq_none.mp hf' a (h.subset hma)
          rw [hpa] at this
          exact absurd rfl this
  | none =>
      cases hf' : l'.find? p with
      | some b =>
          have hpb := List.find?_some hf'
          have hmb : b ∈ l := h.symm.subset (List.mem_of_find?_eq_some hf')
          have := List.find?_eq_none.mp hf b hmb
          rw [hpb] at this
          exact absurd rfl this
      | none => rfl

/-- C6: reading a top-level zone emits the contributing fragments' HTML in
ascending order of their `index` values, independently of the order in
which the contributions were written: the emission over any permutation of
the zone's content entries is identical, the sorted provider list is a
permutation of the contributors, and it is strictly ascending in `index`.
(Providers have pairwise distinct full names and indexes, as the lookup
table guarantees.) -/
theorem defineZone_emits_by_index (name dflt : String) (owner : UIComponent)
    (cs cs' : List (UIComponent × List ZoneContent))
    (hperm : cs'.Perm cs)
    (hfn : (cs.map (fun e => e.1.fullName)).Nodup)
    (hidx : (cs.map (fun e => e.1.index)).Nodup) :
    defineZoneHelper [(name, ⟨name, owner, cs'⟩)] name dflt
      = defineZoneHelper [(name, ⟨name, owner, cs⟩)] name dflt
    ∧ (sortUiComponents (Zone.getContentProviders ⟨name, owner, cs⟩)).Perm
        (Zone.getContentProviders ⟨name, owner, cs⟩)
    ∧ List.Sorted (fun a b => a.index < b.index)
        (sortUiComponents (Zone.getContentProviders ⟨name, owner, cs⟩)) := by
  have hpp : (cs'.map (fun e => e.1)).Perm (cs.map (fun e => e.1)) := hperm.map _
  have hidx' : (cs'.map (fun e => e.1.index)).Nodup := by
    have : (cs'.map (fun e => e.1.index)).Perm (cs.map (fun e => e.1.index)) :=
      hperm.map _
    exact this.nodup_iff.mpr hidx
  have hsorted : List.Sorted (fun a b : UIComponent => a.index < b.index)
      (sortUiComponents (cs.map (fun e => e.1))) := by
    have : (cs.map (fun e => e.1)).map (fun c => c.index) = cs.map (fun e => e.1.index) := by
      simp
    exact sortUiComponents_sorted_lt _ (by rw [this]; exact hidx)
  have hsorted' : List.Sorted (fun a b : UIComponent => a.index < b.index)
      (sortUiComponents (cs'.map (fun e => e.1))) := by
    have : (cs'.map (fun e => e.1)).map (fun c => c.index) = cs'.map (fun e => e.1.index) := by
      simp
    exact sortUiComponents_sorted_lt _ (by rw [this]; exact hidx')
  have hsortEq : sortUiComponents (cs'.map (fun e => e.1))
      = sortUiComponents (cs.map (fun e => e.1)) := by
    refine List.eq_of_perm_of_sorted ?_ hsorted' hsorted
    exact ((sortUiComponents_perm _).trans hpp).trans (sortUiComponents_perm _).symm
  have hcont : ∀ fn, Zone.getContents ⟨name, owner, cs'⟩ fn
      = Zone.getContents ⟨name, owner, cs⟩ fn := by
    intro fn
    show (match cs'.find? (fun e => e.1.fullName == fn) with
          | some e => some e.2 | none => none)
       = (match cs.find? (fun e => e.1.fullName == fn) with
          | some e => some e.2 | none => none)
    rw [find?_perm_of_unique _ cs cs' hperm.symm ?_]
    intro a ha b hb hpa hpb
    have ha' : a.1.fullName = fn := by simpa using hpa
    have hb' : b.1.fullName = fn := by simpa using hpb
    exact List.inj_on_of_nodup_map hfn ha hb (ha'.trans hb'.symm)
  refine ⟨?_, sortUiComponents_perm _, hsorted⟩
  show defineZoneHelper [(name, ⟨name, owner, cs'⟩)] name dflt
      = defineZoneHelper [(name, ⟨name, owner, cs⟩)] name dflt
  unfold defineZoneHelper
  simp only [assocFind, if_pos rfl]
  show String.join ((sortUiComponents (Zone.getContentProviders ⟨name, owner, cs'⟩)).map _)
     = String.join ((sortUiComponents (Zone.getContentProviders ⟨name, owner, cs⟩)).map _)
  show String.join ((sortUiComponents (cs'.map (fun e => e.1))).map _)
     = String.join ((sortUiComponents (cs.map (fun e => e.1))).map _)
  rw [hsortEq]
  congr 1
  apply List.map_congr_left
  intro p _
  rw [hcont]

/-- Witness for C6: two providers written page-first; the emission equals
the one for the unit-first write order. -/
theorem defineZone_emits_by_index_witness :
    ([(examplePage, [pageContribution]), (exampleUnit, [unitContribution])].Perm
      [(exampleUnit, [unitContribution]), (examplePage, [pageContribution])])
    ∧ defineZoneHelper
        [("content", ⟨"content", examplePage,
          [(examplePage, [pageContribution]), (exampleUnit, [unitContribution])]⟩)]
        "content" ""
      = defineZoneHelper
          [("content", ⟨"content", examplePage,
            [(exampleUnit, [unitContribution]), (examplePage, [pageContribution])]⟩)]
          "content" "" :=
  ⟨List.Perm.swap _ _ _,
   (defineZone_emits_by_index "content" "" examplePage
     [(exampleUnit, [unitContribution]), (examplePage, [pageContribution])]
     [(examplePage, [pageContribution]), (exampleUnit, [unitContribution])]
     (List.Perm.swap _ _ _) (by decide) (by decide)).1⟩

theorem assocFind_assocUpdate_self {α : Type} (l : List (String × α)) (k : String)
    (f : α → α) : assocFind (assocUpdate l k f) k = (assocFind l k).map f := by
  induction l with
  | nil => simp [assocFind, assocUpdate]
  | cons e rest ih =>
      obtain ⟨k', v'⟩ := e
      by_cases h : k' = k
      · simp [assocFind, assocUpdate, h]
      · simp [assocFind, assocUpdate, h, ih]

theorem assocFind_assocSet_self {α : Type} (l : List (String × α)) (k : String)
    (v : α) : assocFind (assocSet l k v) k = some v := by
  induction l with
  | nil => simp [assocFind, assocSet]
  | cons e rest ih =>
      obtain ⟨k', v'⟩ := e
      by_cases h : k' = k
      · simp [assocFind, assocSet, h]
      · simp [assocFind, assocSet, h, ih]

/-- C7: invoking the zone helper of
src/lib/rendering-handlebars-helpers.js while exactly one zone is open
registers a sub-zone content entry under the enclosing zone's content for
the current provider (which opened the enclosing zone, so its entry
exists); invoking it while two or more zones are open aborts the render
with the fatal "Too many sub-zones" usage error. -/
theorem zone_nesting_rules (zones : ZonesModel) (m zoneName : String)
    (pfn : String) (ufn : Option String) (ov : Bool) (html : String)
    (zd : List (String × UIComponentData)) (ucd : UIComponentData)
    (hzd : assocFind zones m = some zd)
    (hucd : assocFind zd (ufn.getD pfn) = some ucd) :
    (∃ zones', zoneHelperSL zones [m] (some pfn) ufn zoneName ov html = .ok zones'
      ∧ ∃ zd' ucd' szs, assocFind zones' m = some zd'
          ∧ assocFind zd' (ufn.getD pfn) = some ucd'
          ∧ ucd'.subZonesData = some szs
          ∧ (assocFind szs zoneName).isSome = true)
    ∧ (∀ (m2 : String) (rest : List String),
        zoneHelperSL zones (m :: m2 :: rest) (some pfn) ufn zoneName ov html
          = .error ("Too many sub-zones in zone\x27" ++ m ++ "\x27.")) := by
  constructor
  · cases hsz : ucd.subZonesData with
    | none =>
        have heval : zoneHelperSL zones [m] (some pfn) ufn zoneName ov html = .ok (assocUpdate zones m (fun zd0 => assocSet zd0 (ufn.getD pfn) { ucd with subZonesData := some [(zoneName, ⟨ov, [html]⟩)] })) := by
          simp only [zoneHelperSL, zoneHelperSL.zoneHelperSLWrite, hzd, hucd, hsz]
        refine ⟨_, heval, assocSet zd (ufn.getD pfn) { ucd with subZonesData := some [(zoneName, ⟨ov, [html]⟩)] }, { ucd with subZonesData := some [(zoneName, ⟨ov, [html]⟩)] }, [(zoneName, (⟨ov, [html]⟩ : MainZoneData))], ?_, ?_, rfl, ?_⟩
        · rw [assocFind_assocUpdate_self, hzd]; rfl
        · rw [assocFind_assocSet_self]
        · simp [assocFind]
    | some szs =>
        cases hsd : assocFind szs zoneName with
        | none =>
            have heval : zoneHelperSL zones [m] (some pfn) ufn zoneName ov html = .ok (assocUpdate zones m (fun zd0 => assocSet zd0 (ufn.getD pfn) { ucd with subZonesData := some (assocSet szs zoneName ⟨ov, [html]⟩) })) := by
              simp only [zoneHelperSL, zoneHelperSL.zoneHelperSLWrite, hzd, hucd, hsz, hsd]
            refine ⟨_, heval, assocSet zd (ufn.getD pfn) { ucd with subZonesData := some (assocSet szs zoneName ⟨ov, [html]⟩) }, { ucd with subZonesData := some (assocSet szs zoneName ⟨ov, [html]⟩) }, assocSet szs zoneName ⟨ov, [html]⟩, ?_, ?_, rfl, ?_⟩
            · rw [assocFind_assocUpdate_self, hzd]; rfl
            · rw [assocFind_assocSet_self]
            · rw [assocFind_assocSet_self]; rfl
        | some szd =>
            by_cases hov : szd.isOverridden
            · have heval : zoneHelperSL zones [m] (some pfn) ufn zoneName ov html = .ok (assocUpdate zones m (fun zd0 => assocSet zd0 (ufn.getD pfn) ucd)) := by
                simp only [zoneHelperSL, zoneHelperSL.zoneHelperSLWrite, hzd, hucd, hsz,
                  hsd, if_pos hov]
              refine ⟨_, heval, assocSet zd (ufn.getD pfn) ucd, ucd, szs, ?_, ?_, hsz, ?_⟩
              · rw [assocFind_assocUpdate_self, hzd]; rfl
              · rw [assocFind_assocSet_self]
              · rw [hsd]; rfl
            · have heval : zoneHelperSL zones [m] (some pfn) ufn zoneName ov html = .ok (assocUpdate zones m (fun zd0 => assocSet zd0 (ufn.getD pfn) { ucd with subZonesData := some (assocUpdate szs zoneName (fun d => { d with buffer := d.buffer ++ [html] })) })) := by
                simp only [zoneHelperSL, zoneHelperSL.zoneHelperSLWrite, hzd, hucd, hsz,
                  hsd, if_neg hov]
              refine ⟨_, heval, assocSet zd (ufn.getD pfn) { ucd with subZonesData := some (assocUpdate szs zoneName (fun d => { d with buffer := d.buffer ++ [html] })) }, { ucd with subZonesData := some (assocUpdate szs zoneName (fun d => { d with buffer := d.buffer ++ [html] })) }, assocUpdate szs zoneName (fun d => { d with buffer := d.buffer ++ [html] }), ?_, ?_, rfl, ?_⟩
              · rw [assocFind_assocUpdate_self, hzd]; rfl
              · rw [assocFind_assocSet_self]
              · rw [assocFind_assocUpdate_self, hsd]; rfl
  · intro m2 rest
    rfl

/-- Witness for C7: a provider that opened zone `main` attempts a third
nesting level; the helper throws the fatal usage error. -/
theorem zone_nesting_rules_witness :
    (assocFind ([("main", [("ns.page.home",
        (⟨some ⟨true, ["x"]⟩, none⟩ : UIComponentData))])] : ZonesModel) "main"
      = some [("ns.page.home", ⟨some ⟨true, ["x"]⟩, none⟩)])
    ∧ zoneHelperSL [("main", [("ns.page.home", ⟨some ⟨true, ["x"]⟩, none⟩)])]
        ["main", "inner"] (some "ns.page.home") none "sub" true "<s>"
      = .error "Too many sub-zones in zone\x27main\x27." :=
  ⟨rfl, (zone_nesting_rules
    [("main", [("ns.page.home", ⟨some ⟨true, ["x"]⟩, none⟩)])]
    "main" "sub" "ns.page.home" none true "<s>"
    [("ns.page.home", ⟨some ⟨true, ["x"]⟩, none⟩)]
    ⟨some ⟨true, ["x"]⟩, none⟩ rfl rfl).2 "inner" []⟩

/-! Lemmas for the furthest-child selection. -/

theorem indexOfStr_nonneg_of_mem (l : List String) (x : String) (h : x ∈ l) :
    0 ≤ indexOfStr l x := by
  induction l with
  | nil => cases h
  | cons y rest ih =>
      by_cases hy : y = x
      · simp [indexOfStr, hy]
      · have hx : x ∈ rest := by
          cases h with
          | head => exact absurd rfl hy
          | tail _ h' => exact h'
        have h0 := ih hx
        simp only [indexOfStr, if_neg hy]
        have hne : indexOfStr rest x ≠ -1 := by omega
        rw [if_neg hne]
        omega

theorem pickBest_le (d : UIComponent → Int) (us : List UIComponent) :
    ∀ (dist : Int) (fc : UIComponent), dist ≤ (pickBest d dist fc us).2 := by
  induction us with
  | nil => intro dist fc; simp [pickBest]
  | cons u rest ih =>
      intro dist fc
      by_cases h : dist < d u
      · simp only [pickBest, if_pos h]
        have := ih (d u) u
        omega
      · simp only [pickBest, if_neg h]
        exact ih dist fc

theorem pickBest_ge_mem (d : UIComponent → Int) (us : List UIComponent) :
    ∀ (dist : Int) (fc : UIComponent) (u : UIComponent), u ∈ us →
      d u ≤ (pickBest d dist fc us).2 := by
  induction us with
  | nil => intro _ _ _ h; cases h
  | cons v rest ih =>
      intro dist fc u hu
      by_cases h : dist < d v
      · simp only [pickBest, if_pos h]
        cases hu with
        | head => exact pickBest_le d rest (d v) v
        | tail _ h' => exact ih (d v) v u h'
      · simp only [pickBest, if_neg h]
        cases hu with
        | head =>
            have h2 := pickBest_le d rest dist fc
            omega
        | tail _ h' => exact ih dist fc u h'

theorem pickBest_mem (d : UIComponent → Int) (us : List UIComponent) :
    ∀ (dist : Int) (fc : UIComponent),
      (pickBest d dist fc us).1 = fc ∨ (pickBest d dist fc us).1 ∈ us := by
  induction us with
  | nil => intro _ _; left; rfl
  | cons u rest ih =>
      intro dist fc
      by_cases h : dist < d u
      · simp only [pickBest, if_pos h]
        rcases ih (d u) u with h' | h'
        · right; rw [h']; exact List.mem_cons_self _ _
        · right; exact List.mem_cons_of_mem _ h'
      · simp only [pickBest, if_neg h]
        rcases ih dist fc with h' | h'
        · left; exact h'
        · right; exact List.mem_cons_of_mem _ h'

theorem pickBest_dist_eq (d : UIComponent → Int) (us : List UIComponent) :
    ∀ (dist : Int) (fc : UIComponent), d fc = dist →
      d (pickBest d dist fc us).1 = (pickBest d dist fc us).2 := by
  induction us with
  | nil => intro _ _ h; exact h
  | cons u rest ih =>
      intro dist fc h
      by_cases hlt : dist < d u
      · simp only [pickBest, if_pos hlt]
        exact ih (d u) u rfl
      · simp only [pickBest, if_neg hlt]
        exact ih dist fc h

theorem pickBest_stay (d : UIComponent → Int) (us : List UIComponent) :
    ∀ (dist : Int) (fc : UIComponent), (pickBest d dist fc us).2 = dist →
      (pickBest d dist fc us).1 = fc := by
  induction us with
  | nil => intro _ _ _; rfl
  | cons u rest ih =>
      intro dist fc h
      by_cases hlt : dist < d u
      · exfalso
        have h1 : (pickBest d dist fc (u :: rest)).2 = (pickBest d (d u) u rest).2 := by
          simp only [pickBest, if_pos hlt]
        have h2 := pickBest_le d rest (d u) u
        omega
      · simp only [pickBest, if_neg hlt] at h ⊢
        exact ih dist fc h

theorem pickBest_find (d : UIComponent → Int) (us : List UIComponent) :
    ∀ (dist : Int) (fc : UIComponent), dist < (pickBest d dist fc us).2 →
      us.find? (fun u => d u == (pickBest d dist fc us).2) = some (pickBest d dist fc us).1 := by
  induction us with
  | nil => intro dist fc h; simp [pickBest] at h
  | cons u rest ih =>
      intro dist fc h
      by_cases hlt : dist < d u
      · simp only [pickBest, if_pos hlt] at h ⊢
        by_cases heq : (pickBest d (d u) u rest).2 = d u
        · have h1 := pickBest_stay d rest (d u) u heq
          rw [List.find?_cons_of_pos _ (by simp [heq]), h1]
        · have h2 := pickBest_le d rest (d u) u
          have hlt2 : d u < (pickBest d (d u) u rest).2 := by omega
          rw [List.find?_cons_of_neg _ (by simp; omega)]
          exact ih (d u) u hlt2
      · simp only [pickBest, if_neg hlt] at h ⊢
        have hne : d u ≠ (pickBest d dist fc rest).2 := by omega
        rw [List.find?_cons_of_neg _ (by simp [hne])]
        exact ih dist fc h

theorem tieWarnings_mem (d : UIComponent → Int) (us : List UIComponent) :
    ∀ (dist : Int) (fc : UIComponent) (u' : UIComponent), u' ∈ us →
      d u' = (pickBest d dist fc us).2 → u' ≠ (pickBest d dist fc us).1 →
      ((pickBest d dist fc us).1.fullName, u'.fullName, d u')
        ∈ tieWarnings d dist fc us := by
  induction us with
  | nil => intro _ _ _ h; cases h
  | cons u rest ih =>
      intro dist fc u' hu' hd hne
      by_cases hlt : dist < d u
      · simp only [pickBest, if_pos hlt] at hd hne ⊢
        simp only [tieWarnings, if_pos hlt]
        cases hu' with
        | head =>
            exact absurd (pickBest_stay d rest (d u) u hd.symm).symm hne
        | tail _ h' => exact ih (d u) u u' h' hd hne
      · simp only [pickBest, if_neg hlt] at hd hne ⊢
        simp only [tieWarnings, if_neg hlt]
        cases hu' with
        | head =>
            have hle := pickBest_le d rest dist fc
            have hdu : dist = d u := by omega
            have h1 : (pickBest d dist fc rest).2 = dist := by omega
            have h2 := pickBest_stay d rest dist fc h1
            rw [if_pos hdu, h2, hd, h1]
            exact List.mem_cons_self _ _
        | tail _ h' =>
            by_cases hdu : dist = d u
            · rw [if_pos hdu]
              exact List.mem_cons_of_mem _ (ih dist fc u' h' hd hne)
            · rw [if_neg hdu]
              exact ih dist fc u' h' hd hne

theorem gfcuLoop_eq (units : List (String × UIComponent)) (pn : String)
    (names : List String) (us : List UIComponent)
    (hres : List.Forall₂ (fun n u => assocFind units n = some u) names us) :
    ∀ (fc : UIComponent) (dist : Int) (warns : List (String × String × Int)),
      getFurthestChildUnitLoop units pn names ⟨some fc, dist, warns⟩
        = .ok ⟨some (pickBest (fun u => indexOfStr u.parents pn) dist fc us).1,
               (pickBest (fun u => indexOfStr u.parents pn) dist fc us).2,
               warns ++ tieWarnings (fun u => indexOfStr u.parents pn) dist fc us⟩ := by
  induction hres with
  | nil =>
      intro fc dist warns
      simp [getFurthestChildUnitLoop, pickBest, tieWarnings]
  | @cons n u ns us' hr hrest ih =>
      intro fc dist warns
      simp only [getFurthestChildUnitLoop, hr]
      by_cases h1 : dist < indexOfStr u.parents pn
      · rw [if_pos h1, ih]
        simp only [pickBest, tieWarnings, if_pos h1]
      · rw [if_neg h1]
        by_cases h2 : dist = indexOfStr u.parents pn
        · rw [if_pos h2, ih]
          simp only [pickBest, tieWarnings, if_neg h1, if_pos h2]
          rw [List.append_assoc, h2]
          rfl
        · rw [if_neg h2, ih]
          simp only [pickBest, tieWarnings, if_neg h1, if_neg h2]

/-- C3: for a unit with children whose child entries all resolve in the
lookup table and all list the unit on their parents chain, the furthest
child loop returns the first-examined child attaining the maximal
distance (`parents.indexOf` of the mentioned unit): it is a child of
maximal distance, `find?` over the children in examination order returns
exactly it, and every other child tying at the maximal distance is
recorded in a warning naming the kept candidate, the ignored candidate
and the distance. -/
theorem furthest_child_selection (units : List (String × UIComponent))
    (parentUnit : UIComponent) (us : List UIComponent)
    (hne : parentUnit.children ≠ [])
    (hres : List.Forall₂ (fun n u => assocFind units n = some u)
      parentUnit.children us)
    (hpar : ∀ u ∈ us, parentUnit.fullName ∈ u.parents) :
    ∃ st', getFurthestChildUnit units parentUnit = .ok st'
      ∧ ∃ fc, st'.furthestChild = some fc
        ∧ fc ∈ us
        ∧ (∀ u ∈ us, indexOfStr u.parents parentUnit.fullName
            ≤ indexOfStr fc.parents parentUnit.fullName)
        ∧ us.find? (fun u => indexOfStr u.parents parentUnit.fullName
            == indexOfStr fc.parents parentUnit.fullName) = some fc
        ∧ (∀ u ∈ us, u ≠ fc →
            indexOfStr u.parents parentUnit.fullName
              = indexOfStr fc.parents parentUnit.fullName →
            (fc.fullName, u.fullName, indexOfStr u.parents parentUnit.fullName)
              ∈ st'.warnings) := by
  cases hch : parentUnit.children with
  | nil => exact absurd hch hne
  | cons n₀ ns =>
      rw [hch] at hres
      cases hres with
      | @cons _ u₀ _ us' hr hrest =>
          have h0 : (0 : Int) ≤ indexOfStr u₀.parents parentUnit.fullName :=
            indexOfStr_nonneg_of_mem _ _ (hpar u₀ (List.mem_cons_self _ _))
          have hloop :
              getFurthestChildUnit units parentUnit
                = .ok ⟨some (pickBest (fun u => indexOfStr u.parents parentUnit.fullName)
                    (indexOfStr u₀.parents parentUnit.fullName) u₀ us').1,
                  (pickBest (fun u => indexOfStr u.parents parentUnit.fullName)
                    (indexOfStr u₀.parents parentUnit.fullName) u₀ us').2,
                  [] ++ tieWarnings (fun u => indexOfStr u.parents parentUnit.fullName)
                    (indexOfStr u₀.parents parentUnit.fullName) u₀ us'⟩ := by
            unfold getFurthestChildUnit
            rw [if_neg (by rw [hch]; exact fun hh => List.noConfusion hh), hch]
            simp only [getFurthestChildUnitLoop, hr]
            rw [if_pos (by omega), gfcuLoop_eq units parentUnit.fullName ns us' hrest]
          set d : UIComponent → Int := fun u => indexOfStr u.parents parentUnit.fullName
            with hdfun
          set pick := pickBest d (d u₀) u₀ us' with hpick
          have hdeq : indexOfStr pick.1.parents parentUnit.fullName = pick.2 :=
            pickBest_dist_eq d us' (d u₀) u₀ rfl
          have hle : indexOfStr u₀.parents parentUnit.fullName ≤ pick.2 :=
            pickBest_le d us' (d u₀) u₀
          refine ⟨_, hloop, pick.1, rfl, ?_, ?_, ?_, ?_⟩
          · rcases pickBest_mem d us' (d u₀) u₀ with h | h
            · rw [show pick.1 = u₀ from h]; exact List.mem_cons_self _ _
            · exact List.mem_cons_of_mem _ h
          · intro u hu
            rw [hdeq]
            cases hu with
            | head => exact hle
            | tail _ h' => exact pickBest_ge_mem d us' (d u₀) u₀ u h'
          · by_cases hstay : pick.2 = indexOfStr u₀.parents parentUnit.fullName
            · have h1 : pick.1 = u₀ := pickBest_stay d us' (d u₀) u₀ hstay
              rw [List.find?_cons_of_pos _ (by rw [hdeq, hstay]; exact beq_self_eq_true _),
                  h1]
            · have hlt : indexOfStr u₀.parents parentUnit.fullName < pick.2 := by omega
              rw [List.find?_cons_of_neg _ (by rw [hdeq]; simp; omega)]
              rw [hdeq]
              exact pickBest_find d us' (d u₀) u₀ hlt
          · intro u hu hne' hdu
            rw [hdeq] at hdu
            cases hu with
            | head =>
                exact absurd (pickBest_stay d us' (d u₀) u₀ hdu.symm).symm hne'
            | tail _ h' =>
                rw [List.nil_append]
                exact tieWarnings_mem d us' (d u₀) u₀ u h' hdu hne'

/-! Lemmas for the duplicate-URI rejection. -/

theorem assocFind_append {α : Type} (l₁ l₂ : List (String × α)) (k : String) :
    assocFind (l₁ ++ l₂) k = (assocFind l₁ k).or (assocFind l₂ k) := by
  induction l₁ with
  | nil => simp [assocFind]
  | cons e rest ih =>
      obtain ⟨k', v'⟩ := e
      by_cases h : k' = k
      · simp [assocFind, h]
      · simp [assocFind, h, ih]

theorem assocFind_eq_none_iff {α : Type} (l : List (String × α)) (k : String) :
    assocFind l k = none ↔ k ∉ l.map (·.1) := by
  induction l with
  | nil => simp [assocFind]
  | cons e rest ih =>
      obtain ⟨k', v'⟩ := e
      by_cases h : k' = k
      · subst h; simp [assocFind]
      · rw [show assocFind ((k', v') :: rest) k = assocFind rest k from by
          simp [assocFind, h], ih]
        simp only [List.map_cons, List.mem_cons]
        constructor
        · intro hnot hor
          rcases hor with h1 | h2
          · exact h h1.symm
          · exact hnot h2
        · intro hnot h2
          exact hnot (Or.inr h2)

theorem registerPagesLoop_ok_fresh (layouts : List String) (pages : List UIComponent) :
    ∀ (acc : List (String × String)) (res : List (String × String)),
      registerPagesLoop layouts pages acc = .ok res →
      ∀ q ∈ pages, q.children = [] → truthyAt q.definition "disabled" = false →
        assocFind acc (pageUriOf q) = none := by
  induction pages with
  | nil => intro acc res _ q hq; cases hq
  | cons page rest ih =>
      intro acc res h q hq hleaf hdis
      simp only [registerPagesLoop] at h
      by_cases hch : page.children ≠ []
      · rw [if_pos hch] at h
        cases hq with
        | head => exact absurd hleaf hch
        | tail _ hq' => exact ih acc res h q hq' hleaf hdis
      · rw [if_neg hch] at h
        cases hval : validatePageDefinition page layouts with
        | some msg => rw [hval] at h; cases h
        | none =>
            rw [hval] at h
            by_cases hd : truthyAt page.definition "disabled" = true
            · rw [if_pos hd] at h
              cases hq with
              | head => exact absurd hd (by rw [hdis]; exact Bool.false_ne_true)
              | tail _ hq' => exact ih acc res h q hq' hleaf hdis
            · rw [if_neg hd] at h
              cases hfind : assocFind acc (pageUriOf page) with
              | some registered => rw [hfind] at h; cases h
              | none =>
                  rw [hfind] at h
                  cases hq with
                  | head => exact hfind
                  | tail _ hq' =>
                      have h2 := ih _ res h q hq' hleaf hdis
                      rw [assocFind_append] at h2
                      exact Option.or_eq_none.mp h2 |>.1

theorem registerPagesLoop_ok_pairwise (layouts : List String)
    (pages : List UIComponent) :
    ∀ (acc : List (String × String)) (res : List (String × String)),
      registerPagesLoop layouts pages acc = .ok res →
      pages.Pairwise (fun p q => p.children = [] → q.children = [] →
        truthyAt p.definition "disabled" = false →
        truthyAt q.definition "disabled" = false →
        pageUriOf p ≠ pageUriOf q) := by
  induction pages with
  | nil => intro _ _ _; exact List.Pairwise.nil
  | cons page rest ih =>
      intro acc res h
      simp only [registerPagesLoop] at h
      by_cases hch : page.children ≠ []
      · rw [if_pos hch] at h
        exact List.Pairwise.cons (fun q _ hp _ _ _ => absurd hp hch) (ih acc res h)
      · rw [if_neg hch] at h
        cases hval : validatePageDefinition page layouts with
        | some msg => rw [hval] at h; cases h
        | none =>
            rw [hval] at h
            by_cases hd : truthyAt page.definition "disabled" = true
            · rw [if_pos hd] at h
              refine List.Pairwise.cons ?_ (ih acc res h)
              intro q _ _ _ hpd _
              exact absurd hd (by rw [hpd]; exact Bool.false_ne_true)
            · rw [if_neg hd] at h
              cases hfind : assocFind acc (pageUriOf page) with
              | some registered => rw [hfind] at h; cases h
              | none =>
                  rw [hfind] at h
                  refine List.Pairwise.cons ?_ (ih _ res h)
                  intro q hq _ hqleaf _ hqdis heq
                  have h2 := registerPagesLoop_ok_fresh layouts rest _ res h q hq
                    hqleaf hqdis
                  rw [← heq, assocFind_append] at h2
                  have h3 := (Option.or_eq_none.mp h2).2
                  simp [assocFind] at h3

theorem registerPagesLoop_ok_nodup (layouts : List String)
    (pages : List UIComponent) :
    ∀ (acc : List (String × String)) (res : List (String × String)),
      registerPagesLoop layouts pages acc = .ok res →
      (acc.map (·.1)).Nodup → (res.map (·.1)).Nodup := by
  induction pages with
  | nil =>
      intro acc res h hn
      simp only [registerPagesLoop] at h
      cases h
      exact hn
  | cons page rest ih =>
      intro acc res h hn
      simp only [registerPagesLoop] at h
      by_cases hch : page.children ≠ []
      · rw [if_pos hch] at h
        exact ih acc res h hn
      · rw [if_neg hch] at h
        cases hval : validatePageDefinition page layouts with
        | some msg => rw [hval] at h; cases h
        | none =>
            rw [hval] at h
            by_cases hd : truthyAt page.definition "disabled" = true
            · rw [if_pos hd] at h
              exact ih acc res h hn
            · rw [if_neg hd] at h
              cases hfind : assocFind acc (pageUriOf page) with
              | some registered => rw [hfind] at h; cases h
              | none =>
                  rw [hfind] at h
                  refine ih _ res h ?_
                  rw [List.map_append]
                  refine List.Nodup.append hn (by simp) ?_
                  intro x hx hx'
                  simp at hx'
                  rw [hx'] at hx
                  exact absurd ((assocFind_eq_none_iff acc _).mp hfind) (fun hh => hh hx)

/-- C9: a successfully built `uriPagesMap` maps each registered URI to
exactly one page (its keys are pairwise distinct); whenever two distinct
leaf, non-disabled pages carry the identical URI, the build fails with an
error; on the concrete two-page input the error names both pages; and
`getLookupTable` then propagates the error, so no lookup table is
returned or published to the cache. -/
theorem duplicate_uri_rejected :
    (∀ (layouts : List String) (pages : List UIComponent)
        (res : List (String × String)),
      registerPagesLoop layouts pages [] = .ok res → (res.map (·.1)).Nodup)
    ∧ (∀ (layouts : List String) (pages : List UIComponent) (p q : UIComponent),
        [p, q].Sublist pages → p.children = [] → q.children = [] →
        truthyAt p.definition "disabled" = false →
        truthyAt q.definition "disabled" = false →
        pageUriOf p = pageUriOf q →
        ∃ msg, registerPagesLoop layouts pages [] = .error msg)
    ∧ registerPagesLoop ["main"] [dupPageOne, dupPageTwo] []
        = .error ("Cannot register page \x27ns.page.two\x27 for URI \x27/home\x27 since page \x27ns.page.one\x27 already registered.")
    ∧ (∀ (pagesMap : List (String × UIComponent)),
        getLookupTable false none ["main"] [dupPageOne, dupPageTwo] pagesMap
          = .error ("Cannot register page \x27ns.page.two\x27 for URI \x27/home\x27 since page \x27ns.page.one\x27 already registered.")) := by
  refine ⟨?_, ?_, ?_, ?_⟩
  · intro layouts pages res h
    exact registerPagesLoop_ok_nodup layouts pages [] res h (by simp)
  · intro layouts pages p q hsub hpl hql hpd hqd huri
    cases hres : registerPagesLoop layouts pages [] with
    | error msg => exact ⟨msg, rfl⟩
    | ok res =>
        exfalso
        have hpw := registerPagesLoop_ok_pairwise layouts pages [] res hres
        have hpq := List.Pairwise.sublist hsub hpw
        rw [List.pairwise_cons] at hpq
        exact hpq.1 q (List.mem_cons_self _ _) hpl hql hpd hqd huri
  · rfl
  · intro pagesMap
    show (match registerPagesLoop ["main"] [dupPageOne, dupPageTwo] [] with
          | .error e => (.error e : Except String (LookupTable × Option LookupTable))
          | .ok uriMap => .ok (⟨pagesMap, uriMap⟩, some ⟨pagesMap, uriMap⟩)) = _
    rw [show registerPagesLoop ["main"] [dupPageOne, dupPageTwo] []
        = .error ("Cannot register page \x27ns.page.two\x27 for URI \x27/home\x27 since page \x27ns.page.one\x27 already registered.") from by rfl]

/-- Witness for C9: the two concrete duplicate pages, one before the
other in the pages array. -/
theorem duplicate_uri_rejected_witness :
    ([dupPageOne, dupPageTwo].Sublist [dupPageOne, dupPageTwo]
      ∧ dupPageOne.children = [] ∧ dupPageTwo.children = []
      ∧ truthyAt dupPageOne.definition "disabled" = false
      ∧ truthyAt dupPageTwo.definition "disabled" = false
      ∧ pageUriOf dupPageOne = pageUriOf dupPageTwo)
    ∧ ∃ msg, registerPagesLoop ["main"] [dupPageOne, dupPageTwo] [] = .error msg :=
  ⟨⟨List.Sublist.refl _, rfl, rfl, by decide, by decide, by decide⟩,
   duplicate_uri_rejected.2.1 ["main"] [dupPageOne, dupPageTwo] dupPageOne dupPageTwo
     (List.Sublist.refl _) rfl rfl (by decide) (by decide) (by decide)⟩

/-! Lemmas for the cyclic `extends` chaining behaviour. -/

theorem assocFind_assocUpdate_ne {α : Type} (l : List (String × α)) (k k' : String)
    (f : α → α) (h : k ≠ k') :
    assocFind (assocUpdate l k f) k' = assocFind l k' := by
  induction l with
  | nil => simp [assocFind, assocUpdate]
  | cons e rest ih =>
      obtain ⟨k0, v0⟩ := e
      by_cases h0 : k0 = k
      · subst h0
        simp only [assocUpdate, if_pos rfl, assocFind]
        rw [if_neg h, if_neg h]
      · simp only [assocUpdate, if_neg h0, assocFind]
        by_cases h1 : k0 = k'
        · rw [if_pos h1, if_pos h1]
        · rw [if_neg h1, if_neg h1, ih]

theorem extend_single_extends (s t : String) :
    extend [("extends", Value.prim (.str s))] [("extends", Value.prim (.str t))]
      = [("extends", Value.prim (.str s))] := by
  simp [extend, extendProps, lookupKey]

theorem cyc2_entry_preserved (st : BuilderState) (k : String)
    (f : UIComponent → UIComponent) (n : String) (dn : List (String × Value))
    (hf : ∀ c, assocFind st n = some c → c.definition = dn → (f c).definition = dn)
    (h : ∃ c, assocFind st n = some c ∧ c.definition = dn) :
    ∃ c, assocFind (assocUpdate st k f) n = some c ∧ c.definition = dn := by
  obtain ⟨c, hc, hcd⟩ := h
  by_cases hk : k = n
  · subst hk
    rw [assocFind_assocUpdate_self, hc]
    exact ⟨f c, rfl, hf c hc hcd⟩
  · rw [assocFind_assocUpdate_ne _ _ _ _ hk]
    exact ⟨c, hc, hcd⟩

theorem cyc2_step (st : BuilderState) (selfName pn t : String) (h : cyc2 st) :
    cyc2 (assocUpdate
      (assocUpdate st pn (fun c => { c with children := c.children ++ [selfName] }))
      selfName (fun c => { c with parents := c.parents ++ [pn], definition := extend c.definition [("extends", Value.prim (.str t))] })) := by
  obtain ⟨hb, hc⟩ := h
  constructor
  · refine cyc2_entry_preserved _ _ _ _ _ ?_ (cyc2_entry_preserved _ _ _ _ _ ?_ hb)
    · intro c _ hcd
      show extend c.definition _ = _
      rw [hcd, extend_single_extends]
    · intro c _ hcd
      exact hcd
  · refine cyc2_entry_preserved _ _ _ _ _ ?_ (cyc2_entry_preserved _ _ _ _ _ ?_ hc)
    · intro c _ hcd
      show extend c.definition _ = _
      rw [hcd, extend_single_extends]
    · intro c _ hcd
      exact hcd

theorem chainWalk_cyclic (selfName : String) :
    ∀ (fuel : Nat) (st : BuilderState) (pn : String),
      (pn = "a.b" ∨ pn = "a.c") → cyc2 st →
      chainWalk "unit" selfName fuel st (some pn) = none := by
  intro fuel
  induction fuel with
  | zero => intro st pn _ _; rfl
  | succ fuel ih =>
      intro st pn hpn hcyc
      obtain ⟨⟨cb, hcb, hcbd⟩, ⟨cc, hcc, hccd⟩⟩ := hcyc
      rcases hpn with h | h
      · subst h
        simp only [chainWalk, hcb, hcbd]
        have hext : extendsOf [("extends", Value.prim (.str "a.c"))] = some "a.c" := rfl
        rw [hext]
        exact ih _ "a.c" (Or.inr rfl)
          (cyc2_step st selfName "a.b" "a.c" ⟨⟨cb, hcb, hcbd⟩, ⟨cc, hcc, hccd⟩⟩)
      · subst h
        simp only [chainWalk, hcc, hccd]
        have hext : extendsOf [("extends", Value.prim (.str "a.b"))] = some "a.b" := rfl
        rw [hext]
        exact ih _ "a.b" (Or.inl rfl)
          (cyc2_step st selfName "a.c" "a.b" ⟨⟨cb, hcb, hcbd⟩, ⟨cc, hcc, hccd⟩⟩)

/-- C1: on the cyclic two-unit input (`a.b extends a.c`, `a.c extends
a.b`) the inheritance-chaining loop of `getUiComponentsData` never
terminates: for every iteration bound the walk is still running, so the
build neither throws a load-time error nor returns (and therefore never
caches) a lookup table. -/
theorem cyclic_extends_chaining_diverges :
    ∀ fuel : Nat,
      chainComponents "unit" fuel (initState cyclicRaws) (cyclicRaws.map (·.1))
        = none := by
  intro fuel
  have hinit : cyc2 (initState cyclicRaws) := ⟨⟨_, rfl, rfl⟩, ⟨_, rfl, rfl⟩⟩
  obtain ⟨⟨cb, hcb, hcbd⟩, hcright⟩ := hinit
  show chainComponents "unit" fuel (initState cyclicRaws) ["a.b", "a.c"] = none
  simp only [chainComponents, hcb]
  rw [hcbd, show extendsOf [("extends", Value.prim (.str "a.c"))] = some "a.c" from rfl,
     chainWalk_cyclic "a.b" fuel (initState cyclicRaws) "a.c" (Or.inr rfl)
       ⟨⟨cb, hcb, hcbd⟩, hcright⟩]

/-! Lemmas for the parents/children chaining invariant. -/

theorem mem_setKey (c : List (String × Value)) (k f : String) (w v : Value)
    (h : (f, v) ∈ setKey c k w) : (f, v) ∈ c ∨ (f = k ∧ v = w) := by
  induction c with
  | nil =>
      simp [setKey] at h
      exact Or.inr ⟨h.1, h.2⟩
  | cons e rest ih =>
      obtain ⟨k', v'⟩ := e
      by_cases hk : k' = k
      · subst hk
        simp only [setKey, if_pos rfl] at h
        cases h with
        | head => exact Or.inr ⟨rfl, rfl⟩
        | tail _ h' => exact Or.inl (List.mem_cons_of_mem _ h')
      · simp only [setKey, if_neg hk] at h
        cases h with
        | head => exact Or.inl (List.mem_cons_self _ _)
        | tail _ h' =>
            rcases ih h' with h2 | h2
            · exact Or.inl (List.mem_cons_of_mem _ h2)
            · exact Or.inr h2

theorem scalar_extendProps (p : List (String × Value)) (c : List (String × Value))
    (f : String)
    (hc : ∀ v, (f, v) ∈ c → ∃ q, v = Value.prim q)
    (hp : ∀ v, (f, v) ∈ p → ∃ q, v = Value.prim q) :
    ∀ v, (f, v) ∈ extendProps c p → ∃ q, v = Value.prim q := by
  induction p generalizing c with
  | nil =>
      intro v hv
      simp only [extendProps] at hv
      exact hc v hv
  | cons e rest ih =>
      obtain ⟨k, w⟩ := e
      have hrest : ∀ v, (f, v) ∈ rest → ∃ q, v = Value.prim q :=
        fun v hv => hp v (List.mem_cons_of_mem _ hv)
      intro v hv
      match w with
      | .arr es =>
          have hk : ¬(f = k) := by
            intro hkf; subst hkf
            rcases hp (.arr es) (List.mem_cons_self _ _) with ⟨q, hq⟩
            exact Value.noConfusion hq
          simp only [extendProps] at hv
          refine ih _ ?_ hrest v hv
          intro v' hv'
          rcases mem_setKey c k f _ v' hv' with h2 | h2
          · exact hc v' h2
          · exact absurd h2.1 hk
      | .obj ps =>
          have hk : ¬(f = k) := by
            intro hkf; subst hkf
            rcases hp (.obj ps) (List.mem_cons_self _ _) with ⟨q, hq⟩
            exact Value.noConfusion hq
          simp only [extendProps] at hv
          refine ih _ ?_ hrest v hv
          intro v' hv'
          rcases mem_setKey c k f _ v' hv' with h2 | h2
          · exact hc v' h2
          · exact absurd h2.1 hk
      | .null =>
          have hk : ¬(f = k) := by
            intro hkf; subst hkf
            rcases hp .null (List.mem_cons_self _ _) with ⟨q, hq⟩
            exact Value.noConfusion hq
          simp only [extendProps] at hv
          refine ih _ ?_ hrest v hv
          intro v' hv'
          rcases mem_setKey c k f _ v' hv' with h2 | h2
          · exact hc v' h2
          · exact absurd h2.1 hk
      | .prim q =>
          simp only [extendProps] at hv
          by_cases hs : (lookupKey c k).isSome = true
          · rw [if_pos hs] at hv
            exact ih _ hc hrest v hv
          · rw [if_neg hs] at hv
            refine ih _ ?_ hrest v hv
            intro v' hv'
            rcases mem_setKey c k f _ v' hv' with h2 | h2
            · exact hc v' h2
            · exact ⟨q, h2.2⟩

theorem extendsOf_extend (d p : List (String × Value)) (s : String)
    (hd : extendsOf d = some s)
    (hp : ∀ v, ("extends", v) ∈ p → ∃ q, v = Value.prim q) :
    extendsOf (extend d p) = some s := by
  unfold extendsOf at hd ⊢
  rw [show extend d p = extendProps d p from rfl,
      lookupKey_extendProps p d "extends" hp]
  cases hl : lookupKey d "extends" with
  | none => rw [hl] at hd; exact absurd hd (by simp)
  | some v =>
      rw [hl] at hd
      simp only [Option.or_some]
      exact hd

theorem assocFind_mem {α : Type} (l : List (String × α)) (k : String) (v : α)
    (h : assocFind l k = some v) : (k, v) ∈ l := by
  induction l with
  | nil => cases h
  | cons e rest ih =>
      obtain ⟨k', v'⟩ := e
      by_cases hk : k' = k
      · subst hk
        rw [assocFind, if_pos rfl] at h
        rw [Option.some.inj h]
        exact List.mem_cons_self _ _
      · rw [assocFind, if_neg hk] at h
        exact List.mem_cons_of_mem _ (ih h)

theorem MidInv_step (st0 : BuilderState) (fuel : Nat) (pre : List String)
    (n pn : String) (done : List String) (st : BuilderState)
    (cp : UIComponent) (cp0 : UIComponent)
    (hmi : MidInv st0 fuel pre n done st)
    (hp0 : assocFind st0 pn = some cp0)
    (hfound : assocFind st pn = some cp)
    (hne : pn ≠ n) (hnd : pn ∉ done)
    (hnx : ∃ s, extMap st0 n = some s) :
    MidInv st0 fuel pre n (done ++ [pn])
      (assocUpdate
        (assocUpdate st pn (fun c => { c with children := c.children ++ [n] })) n
        (fun c => { c with parents := c.parents ++ [pn], definition := extend c.definition cp.definition })) := by
  have hcp := hmi pn cp0 hp0
  obtain ⟨cpx, hcpx, hcpx_ext, hcpx_scal, _, hcpx_ch⟩ := hcp
  have hcpeq : cp = cpx := by
    rw [hcpx] at hfound; exact (Option.some.inj hfound).symm
  rw [← hcpeq] at hcpx_ext hcpx_scal hcpx_ch hcpx
  intro m c0 hm0
  obtain ⟨c, hc, hext, hscal, hpar, hch⟩ := hmi m c0 hm0
  by_cases hmn : m = n
  · subst hmn
    refine ⟨{ c with parents := c.parents ++ [pn], definition := extend c.definition cp.definition }, ?_, ?_, ?_, ?_, ?_⟩
    · rw [assocFind_assocUpdate_self, assocFind_assocUpdate_ne _ _ _ _ hne, hc]
      rfl
    · show extendsOf (extend c.definition cp.definition) = _
      obtain ⟨s, hs⟩ := hnx
      have hs' : extendsOf c0.definition = some s := by
        unfold extMap at hs
        rw [hm0] at hs
        exact hs
      rw [extendsOf_extend c.definition cp.definition s (by rw [hext]; exact hs')
        hcpx_scal, hs']
    · show ∀ v, ("extends", v) ∈ extend c.definition cp.definition → _
      exact scalar_extendProps cp.definition c.definition "extends" hscal hcpx_scal
    · show c.parents ++ [pn] = _
      rw [if_pos rfl] at hpar ⊢
      rw [hpar]
    · show c.children = _
      rw [hch]
      congr 1
      have hiff : (m ∈ done ++ [pn]) ↔ (m ∈ done) := by
        simp only [List.mem_append, List.mem_singleton]
        exact Iff.intro (fun h => h.elim id (fun h2 => absurd h2.symm hne)) Or.inl
      rw [if_congr hiff rfl rfl]
  · by_cases hmpn : m = pn
    · subst hmpn
      have hceq : c = cp := by rw [hc] at hcpx; exact Option.some.inj hcpx
      subst hceq
      refine ⟨{ c with children := c.children ++ [n] }, ?_, hext, hscal, ?_, ?_⟩
      · rw [assocFind_assocUpdate_ne _ _ _ _ (fun h => hmn h.symm),
          assocFind_assocUpdate_self, hc]
        rfl
      · show c.parents = _
        rw [if_neg hmn] at hpar ⊢
        exact hpar
      · show c.children ++ [n] = _
        rw [hch, if_neg hnd, if_pos (by simp), List.append_nil]
    · refine ⟨c, ?_, hext, hscal, ?_, ?_⟩
      · rw [assocFind_assocUpdate_ne _ _ _ _ (fun h => hmn h.symm),
          assocFind_assocUpdate_ne _ _ _ _ (fun h => hmpn h.symm), hc]
      · rw [if_neg hmn] at hpar ⊢
        exact hpar
      · rw [hch]
        congr 1
        have hiff : (m ∈ done ++ [pn]) ↔ (m ∈ done) := by
          simp only [List.mem_append, List.mem_singleton]
          exact Iff.intro (fun h => h.elim id (fun h2 => absurd h2 hmpn)) Or.inl
        rw [if_congr hiff rfl rfl]

theorem chainWalk_aux (st0 : BuilderState) (fuel : Nat) (names pre : List String)
    (n : String)
    (Hpresent : ∀ p ∈ names, (assocFind st0 p).isSome = true) :
    ∀ (fuel2 : Nat) (ch : List String) (start : Option String) (st : BuilderState)
      (done : List String),
      staticChain (extMap st0) fuel2 start = some ch →
      (∀ p ∈ ch, p ∈ names) →
      (done ++ ch).Nodup → n ∉ done ++ ch →
      ((∃ s, extMap st0 n = some s) ∨ start = none) →
      MidInv st0 fuel pre n done st →
      ∃ st', chainWalk "unit" n fuel2 st start = some (.ok st')
        ∧ MidInv st0 fuel pre n (done ++ ch) st' := by
  intro fuel2
  induction fuel2 with
  | zero =>
      intro ch start st done hsc hsub hnd hnin hnx hmi
      cases start with
      | none =>
          have hch : ch = [] := by
            simp only [staticChain] at hsc
            exact (Option.some.inj hsc).symm
          subst hch
          exact ⟨st, rfl, by rw [List.append_nil]; exact hmi⟩
      | some pn =>
          simp only [staticChain] at hsc
          cases hsc
  | succ fuel2 ih =>
      intro ch start st done hsc hsub hnd hnin hnx hmi
      cases start with
      | none =>
          have hch : ch = [] := by
            simp only [staticChain] at hsc
            exact (Option.some.inj hsc).symm
          subst hch
          exact ⟨st, rfl, by rw [List.append_nil]; exact hmi⟩
      | some pn =>
          simp only [staticChain] at hsc
          cases hsc' : staticChain (extMap st0) fuel2 (extMap st0 pn) with
          | none => rw [hsc'] at hsc; cases hsc
          | some ch' =>
              rw [hsc'] at hsc
              have hch : ch = pn :: ch' := (Option.some.inj hsc).symm
              subst hch
              have hpn_names : pn ∈ names := hsub pn (List.mem_cons_self _ _)
              have hpn0 : ∃ cp0, assocFind st0 pn = some cp0 := by
                have := Hpresent pn hpn_names
                cases hfind : assocFind st0 pn with
                | none => rw [hfind] at this; cases this
                | some cp0 => exact ⟨cp0, rfl⟩
              obtain ⟨cp0, hp0⟩ := hpn0
              obtain ⟨cp, hcp, hcp_ext, hcp_scal, _, _⟩ := hmi pn cp0 hp0
              have hpn_ne_n : pn ≠ n := by
                intro h
                exact hnin (h ▸ List.mem_append_right _ (List.mem_cons_self _ _))
              have hpn_nd : pn ∉ done := by
                rw [List.nodup_append] at hnd
                exact fun h => hnd.2.2 h (List.mem_cons_self _ _)
              have hnx' : ∃ s, extMap st0 n = some s := by
                rcases hnx with h | h
                · exact h
                · cases h
              have hstep := MidInv_step st0 fuel pre n pn done st cp cp0 hmi hp0 hcp
                hpn_ne_n hpn_nd hnx'
              have hext_pn : extendsOf cp.definition = extMap st0 pn := by
                rw [hcp_ext]
                unfold extMap
                rw [hp0]
                rfl
              have hnd' : ((done ++ [pn]) ++ ch').Nodup := by
                rw [List.append_assoc]
                exact hnd
              have hnin' : n ∉ (done ++ [pn]) ++ ch' := by
                rw [List.append_assoc]
                exact hnin
              have hsub' : ∀ p ∈ ch', p ∈ names :=
                fun p hp => hsub p (List.mem_cons_of_mem _ hp)
              obtain ⟨st', hwalk, hmid⟩ := ih ch' (extMap st0 pn) _ (done ++ [pn])
                hsc' hsub' hnd' hnin' (Or.inl hnx') hstep
              refine ⟨st', ?_, ?_⟩
              · simp only [chainWalk, hcp]
                rw [hext_pn]
                exact hwalk
              · rw [show done ++ pn :: ch' = (done ++ [pn]) ++ ch' from by
                  rw [List.append_assoc]; rfl]
                exact hmid

theorem chainComponents_aux (st0 : BuilderState) (fuel : Nat) (names : List String)
    (Hpresent : ∀ p ∈ names, (assocFind st0 p).isSome = true)
    (H2 : ∀ p ∈ names, ∃ ch,
        staticChain (extMap st0) fuel (extMap st0 p) = some ch
        ∧ (∀ q ∈ ch, q ∈ names) ∧ ch.Nodup ∧ p ∉ ch) :
    ∀ (suf pre : List String) (st : BuilderState),
      names = pre ++ suf → names.Nodup →
      ChainInv st0 fuel pre st →
      ∃ stF, chainComponents "unit" fuel st suf = some (.ok stF)
        ∧ ChainInv st0 fuel (pre ++ suf) stF := by
  intro suf
  induction suf with
  | nil =>
      intro pre st _ _ hinv
      exact ⟨st, rfl, by rw [List.append_nil]; exact hinv⟩
  | cons n suf' ih =>
      intro pre st heq hnd hinv
      have hn_names : n ∈ names := by
        rw [heq]; exact List.mem_append_right _ (List.mem_cons_self _ _)
      have hn0 : ∃ cn0, assocFind st0 n = some cn0 := by
        have := Hpresent n hn_names
        cases hfind : assocFind st0 n with
        | none => rw [hfind] at this; cases this
        | some cn0 => exact ⟨cn0, rfl⟩
      obtain ⟨cn0, hn0⟩ := hn0
      obtain ⟨c, hc, hext, hscal, hpar, hch⟩ := hinv n cn0 hn0
      have hn_pre : n ∉ pre := by
        have hnd' := heq ▸ hnd
        rw [List.nodup_append] at hnd'
        exact fun h => hnd'.2.2 h (List.mem_cons_self _ _)
      obtain ⟨chn, hscn, hsubn, hchnd, hnchn⟩ := H2 n hn_names
      have hstart : extendsOf c.definition = extMap st0 n := by
        rw [hext]
        unfold extMap
        rw [hn0]
        rfl
      have hmid0 : MidInv st0 fuel pre n [] st := by
        intro m c0 hm0
        obtain ⟨cm, hcm, hcm_ext, hcm_scal, hcm_par, hcm_ch⟩ := hinv m c0 hm0
        refine ⟨cm, hcm, hcm_ext, hcm_scal, ?_, ?_⟩
        · by_cases hmn : m = n
          · subst hmn
            rw [if_pos rfl, if_neg hn_pre] at *
            exact hcm_par
          · rw [if_neg hmn]
            exact hcm_par
        · simp only [List.mem_nil_iff, if_false, List.append_nil]
          exact hcm_ch
      have hnx : (∃ s, extMap st0 n = some s) ∨ extendsOf c.definition = none := by
        cases hx : extMap st0 n with
        | none => exact Or.inr (by rw [hstart, hx])
        | some s => exact Or.inl ⟨s, rfl⟩
      have hwalkpre := chainWalk_aux st0 fuel names pre n Hpresent fuel chn
        (extendsOf c.definition) st [] (by rw [hstart]; exact hscn)
        hsubn (by rw [List.nil_append]; exact hchnd)
        (by rw [List.nil_append]; exact hnchn)
        (by rcases hnx with h | h; exact Or.inl h; exact Or.inr h) hmid0
      obtain ⟨st', hwalk, hmid⟩ := hwalkpre
      have hinv' : ChainInv st0 fuel (pre ++ [n]) st' := by
        intro m c0 hm0
        obtain ⟨cm, hcm, hcm_ext, hcm_scal, hcm_par, hcm_ch⟩ := hmid m c0 hm0
        rw [List.nil_append] at hcm_par hcm_ch
        refine ⟨cm, hcm, hcm_ext, hcm_scal, ?_, ?_⟩
        · by_cases hmn : m = n
          · subst hmn
            rw [if_pos rfl] at hcm_par
            rw [if_pos (List.mem_append_right _ (List.mem_cons_self _ _)), hcm_par]
            unfold chainOf
            rw [hscn]
            rfl
          · rw [if_neg hmn] at hcm_par
            have hiff : (m ∈ pre ++ [n]) ↔ (m ∈ pre) := by
              simp only [List.mem_append, List.mem_singleton]
              exact Iff.intro (fun h => h.elim id (fun h2 => absurd h2 hmn)) Or.inl
            rw [if_congr hiff rfl rfl]
            exact hcm_par
        · rw [hcm_ch, List.filter_append]
          congr 1
          show (if m ∈ chn then [n] else []) = List.filter _ [n]
          by_cases hm : m ∈ chn
          · rw [if_pos hm]
            have : m ∈ chainOf st0 fuel n := by
              unfold chainOf; rw [hscn]; exact hm
            simp [List.filter, this]
          · rw [if_neg hm]
            have : m ∉ chainOf st0 fuel n := by
              unfold chainOf; rw [hscn]; exact hm
            simp [List.filter, this]
      have heq' : names = (pre ++ [n]) ++ suf' := by
        rw [heq, List.append_assoc]
        rfl
      obtain ⟨stF, hcomp, hfinal⟩ := ih (pre ++ [n]) st' heq' hnd hinv'
      refine ⟨stF, ?_, ?_⟩
      · simp only [chainComponents, hc, hwalk]
        exact hcomp
      · rw [show pre ++ n :: suf' = (pre ++ [n]) ++ suf' from by
          rw [List.append_assoc]; rfl]
        exact hfinal

/-- C8 counterexample: in the chain `ns.unit.c extends ns.unit.b extends
ns.unit.a`, after inheritance chaining the `children` of `ns.unit.a`
contains `ns.unit.c` although `ns.unit.c`'s own definition extends
`ns.unit.b`, not `ns.unit.a` — `children` is not restricted to direct
children. -/
theorem children_contains_grandchild :
    childrenAfterChaining threeChainRaws 5 "ns.unit.a"
      = some ["ns.unit.b", "ns.unit.c"]
    ∧ extMap (initState threeChainRaws) "ns.unit.c" = some "ns.unit.b"
    ∧ "ns.unit.b" ≠ "ns.unit.a" := by
  refine ⟨?_, by rfl, by decide⟩
  simp [childrenAfterChaining, chainComponents, chainWalk, initState, threeChainRaws,
    assocFind, assocUpdate, extendsOf, lookupKey, extend, extendProps, setKey,
    missingParentMsg]

/-- C8 amended: after inheritance chaining, every component's `parents`
is its full static `extends` chain ordered nearest ancestor first, and
its `children` contains exactly the full names of all its transitive
descendants — every processed component whose chain passes through it, in
processing order — not only its direct children. -/
theorem parents_children_after_chaining (st0 : BuilderState) (fuel : Nat)
    (names : List String)
    (H0 : ∀ p c, assocFind st0 p = some c → c.parents = [] ∧ c.children = [])
    (H3 : ∀ p c, assocFind st0 p = some c →
        ∀ v, ("extends", v) ∈ c.definition → ∃ q, v = Value.prim q)
    (Hpresent : ∀ p ∈ names, (assocFind st0 p).isSome = true)
    (H1 : names.Nodup)
    (H2 : ∀ p ∈ names, ∃ ch,
        staticChain (extMap st0) fuel (extMap st0 p) = some ch
        ∧ (∀ q ∈ ch, q ∈ names) ∧ ch.Nodup ∧ p ∉ ch) :
    ∃ stF, chainComponents "unit" fuel st0 names = some (.ok stF)
      ∧ ∀ p c0, assocFind st0 p = some c0 →
          ∃ c, assocFind stF p = some c
            ∧ c.parents = (if p ∈ names then chainOf st0 fuel p else [])
            ∧ c.children = names.filter (fun m => decide (p ∈ chainOf st0 fuel m)) := by
  have hbase : ChainInv st0 fuel [] st0 := by
    intro m c0 hm0
    refine ⟨c0, hm0, rfl, H3 m c0 hm0, ?_, ?_⟩
    · rw [if_neg (List.not_mem_nil m)]
      exact (H0 m c0 hm0).1
    · rw [List.filter_nil]
      exact (H0 m c0 hm0).2
  obtain ⟨stF, hcomp, hfinal⟩ := chainComponents_aux st0 fuel names Hpresent H2
    names [] st0 (by rw [List.nil_append]) H1 hbase
  refine ⟨stF, hcomp, ?_⟩
  intro p c0 hp0
  obtain ⟨c, hc, _, _, hpar, hch⟩ := hfinal p c0 hp0
  rw [List.nil_append] at hpar hch
  exact ⟨c, hc, hpar, hch⟩

/-- Witness for the amended C8 theorem: on the three-component chain the
chaining loop succeeds and every component ends with its static chain as
`parents` and its transitive descendants as `children`. -/
theorem parents_children_after_chaining_witness :
    ∃ stF, chainComponents "unit" 5 (initState threeChainRaws)
        (threeChainRaws.map (fun r => r.1)) = some (.ok stF)
      ∧ ∀ p c0, assocFind (initState threeChainRaws) p = some c0 →
          ∃ c, assocFind stF p = some c
            ∧ c.parents = (if p ∈ threeChainRaws.map (fun r => r.1)
                then chainOf (initState threeChainRaws) 5 p else [])
            ∧ c.children = (threeChainRaws.map (fun r => r.1)).filter
                (fun m => decide (p ∈ chainOf (initState threeChainRaws) 5 m)) := by
  apply parents_children_after_chaining
  · intro p c h
    have hm := assocFind_mem _ _ _ h
    simp only [initState, threeChainRaws, List.map_cons, List.map_nil,
      List.mem_cons, List.not_mem_nil, or_false, Prod.mk.injEq] at hm
    rcases hm with ⟨_, rfl⟩ | ⟨_, rfl⟩ | ⟨_, rfl⟩ <;> exact ⟨rfl, rfl⟩
  · intro p c h v hv
    have hm := assocFind_mem _ _ _ h
    simp only [initState, threeChainRaws, List.map_cons, List.map_nil,
      List.mem_cons, List.not_mem_nil, or_false, Prod.mk.injEq] at hm
    rcases hm with ⟨_, rfl⟩ | ⟨_, rfl⟩ | ⟨_, rfl⟩ <;>
      simp only [List.mem_cons, List.not_mem_nil, or_false, Prod.mk.injEq] at hv
    · exact absurd hv.1 (by decide)
    · exact ⟨.str "ns.unit.a", hv.2⟩
    · exact ⟨.str "ns.unit.b", hv.2⟩
  · decide
  · decide
  · intro p hp
    simp only [threeChainRaws, List.map_cons, List.map_nil, List.mem_cons,
      List.not_mem_nil, or_false] at hp
    rcases hp with rfl | rfl | rfl
    · exact ⟨[], by decide, by decide, by decide, by decide⟩
    · exact ⟨["ns.unit.a"], by decide, by decide, by decide, by decide⟩
    · exact ⟨["ns.unit.b", "ns.unit.a"], by decide, by decide, by decide, by decide⟩

/-- Witness for C3: `ns.unit.base` has children at distances 0 and 1; the
loop selects the distance-1 grandchild. -/
theorem furthest_child_selection_witness :
    (baseUnit.children ≠ [])
    ∧ (∀ u ∈ [childUnitX, childUnitY], baseUnit.fullName ∈ u.parents)
    ∧ (∃ st', getFurthestChildUnit exampleUnitsTable baseUnit = .ok st'
        ∧ ∃ fc, st'.furthestChild = some fc ∧ fc ∈ [childUnitX, childUnitY]) := by
  refine ⟨by decide, by decide, ?_⟩
  obtain ⟨st', h1, fc, h2, h3, _⟩ :=
    furthest_child_selection exampleUnitsTable baseUnit [childUnitX, childUnitY]
      (by decide)
      (List.Forall₂.cons rfl (List.Forall₂.cons rfl List.Forall₂.nil))
      (by decide)
  exact ⟨st', h1, fc, h2, h3⟩

end UUF
